import Mathlib

set_option maxRecDepth 100000

/-!
Shallow embedding of the incremental documentation engine of the DevAI
repository (`src/doc/auto_document.py`, and the variant
`src/utils/auto_document2.py`), together with proofs settling the frozen
claims about it.

The Python modules hash file contents with SHA-256, combine digests by
hashing the concatenation of (caller-sorted) hex digests, chunk text by
token windows, summarize via an external LLM, and cache (digest, summary)
records at file / directory / codebase scope in a JSON file.

External collaborators (the OpenAI client, tiktoken's BPE coder, the
`ast` parser, `os.walk`) are modelled as parameters; everything the repo
itself computes (SHA-256 via hashlib's standard algorithm, digest
combination, chunk slicing, cache protocol, orchestration) is embedded
executably below.
-/

/-! ## SHA-256 (hashlib.sha256), executable over byte lists -/

/-- Truncate to a 32-bit word, as all SHA-256 arithmetic is mod 2^32. -/
def wmask (x : Nat) : Nat := x % 4294967296

/-- 32-bit right rotation. -/
def rotr32 (n x : Nat) : Nat := wmask ((x >>> n) ||| (x <<< (32 - n)))

/-- SHA-256 big sigma 0. -/
def bsig0 (x : Nat) : Nat := rotr32 2 x ^^^ rotr32 13 x ^^^ rotr32 22 x

/-- SHA-256 big sigma 1. -/
def bsig1 (x : Nat) : Nat := rotr32 6 x ^^^ rotr32 11 x ^^^ rotr32 25 x

/-- SHA-256 small sigma 0. -/
def ssig0 (x : Nat) : Nat := rotr32 7 x ^^^ rotr32 18 x ^^^ (x >>> 3)

/-- SHA-256 small sigma 1. -/
def ssig1 (x : Nat) : Nat := rotr32 17 x ^^^ rotr32 19 x ^^^ (x >>> 10)

/-- SHA-256 choice function (the complement taken within 32 bits). -/
def chF (x y z : Nat) : Nat := (x &&& y) ^^^ ((x ^^^ 4294967295) &&& z)

/-- SHA-256 majority function. -/
def majF (x y z : Nat) : Nat := (x &&& y) ^^^ (x &&& z) ^^^ (y &&& z)

/-- The 64 SHA-256 round constants. -/
def sha256K : List Nat :=
  [1116352408, 1899447441, 3049323471, 3921009573, 961987163, 1508970993, 2453635748, 2870763221,
   3624381080, 310598401, 607225278, 1426881987, 1925078388, 2162078206, 2614888103, 3248222580,
   3835390401, 4022224774, 264347078, 604807628, 770255983, 1249150122, 1555081692, 1996064986,
   2554220882, 2821834349, 2952996808, 3210313671, 3336571891, 3584528711, 113926993, 338241895,
   666307205, 773529912, 1294757372, 1396182291, 1695183700, 1986661051, 2177026350, 2456956037,
   2730485921, 2820302411, 3259730800, 3345764771, 3516065817, 3600352804, 4094571909, 275423344,
   430227734, 506948616, 659060556, 883997877, 958139571, 1322822218, 1537002063, 1747873779,
   1955562222, 2024104815, 2227730452, 2361852424, 2428436474, 2756734187, 3204031479, 3329325298]

/-- The SHA-256 initial hash value. -/
def sha256H0 : List Nat :=
  [1779033703, 3144134277, 1013904242, 2773480762, 1359893119, 2600822924, 528734635, 1541459225]

/-- Big-endian byte expansion of `v` into `n` bytes. -/
def beBytes (n v : Nat) : List Nat :=
  (List.range n).map (fun i => (v >>> (8 * (n - 1 - i))) % 256)

/-- Fuel-indexed worker for `chunksOf`; structural recursion on the fuel so
that the kernel can evaluate it. -/
def chunksOfAux (size : Nat) : Nat → List α → List (List α)
  | _, [] => []
  | 0, _ :: _ => []
  | fuel + 1, t :: ts => ((t :: ts).take size) :: chunksOfAux size fuel (ts.drop (size - 1))

/-- Split a list into consecutive blocks of `size` elements (last may be
shorter); mirrors slicing `l[i:i+size]` for `i in range(0, len(l), size)`. -/
def chunksOf (size : Nat) (l : List α) : List (List α) :=
  chunksOfAux size l.length l

/-- The fuel of `chunksOfAux` is irrelevant as soon as it covers the list. -/
theorem chunksOfAux_congr (size : Nat) :
    ∀ (f1 : Nat) (l : List α) (f2 : Nat), l.length ≤ f1 → l.length ≤ f2 →
      chunksOfAux size f1 l = chunksOfAux size f2 l := by
  intro f1
  induction f1 with
  | zero =>
    intro l f2 h1 _
    match l with
    | [] => cases f2 <;> rfl
    | t :: ts => simp at h1
  | succ n ih =>
    intro l f2 h1 h2
    match l with
    | [] => cases f2 <;> rfl
    | t :: ts =>
      match f2 with
      | 0 => simp at h2
      | m + 1 =>
        show _ :: chunksOfAux size n (ts.drop (size - 1)) =
             _ :: chunksOfAux size m (ts.drop (size - 1))
        rw [ih (ts.drop (size - 1)) m (by simp at h1 ⊢; omega) (by simp at h2 ⊢; omega)]

/-- Unfolding equation for `chunksOf` on a nonempty list. -/
theorem chunksOf_cons (size : Nat) (t : α) (ts : List α) :
    chunksOf size (t :: ts) = ((t :: ts).take size) :: chunksOf size (ts.drop (size - 1)) := by
  show _ :: chunksOfAux size ts.length (ts.drop (size - 1)) = _
  rw [chunksOfAux_congr size ts.length (ts.drop (size - 1)) (ts.drop (size - 1)).length
      (by simp) (le_refl _)]
  rfl

/-- SHA-256 padding: append 0x80, zero bytes to 56 mod 64, then the
64-bit big-endian bit length. -/
def shaPad (msg : List Nat) : List Nat :=
  let L := msg.length
  let z := (120 - ((L + 1) % 64)) % 64
  msg ++ [128] ++ List.replicate z 0 ++ beBytes 8 (8 * L)

/-- Pack four bytes big-endian into a 32-bit word. -/
def word32OfBytes (bs : List Nat) : Nat :=
  bs.foldl (fun acc b => acc * 256 + b) 0

/-- One extension step of the SHA-256 message schedule. -/
def extendWStep (w : List Nat) : List Nat :=
  w ++ [wmask (ssig1 (w.getD (w.length - 2) 0) + w.getD (w.length - 7) 0 +
               ssig0 (w.getD (w.length - 15) 0) + w.getD (w.length - 16) 0)]

/-- Extend the 16 block words to the 64-entry message schedule. -/
def extendW (w : List Nat) : List Nat :=
  (List.range (64 - w.length)).foldl (fun acc _ => extendWStep acc) w

/-- One SHA-256 compression round. -/
def shaRound (w : List Nat) (st : List Nat) (i : Nat) : List Nat :=
  match st with
  | [a, b, c, d, e, f, g, h] =>
    let t1 := wmask (h + bsig1 e + chF e f g + sha256K.getD i 0 + w.getD i 0)
    let t2 := wmask (bsig0 a + majF a b c)
    [wmask (t1 + t2), a, b, c, wmask (d + t1), e, f, g]
  | st => st

/-- Compress one 64-byte block into the running hash state. -/
def shaBlock (hs : List Nat) (block : List Nat) : List Nat :=
  let w := extendW ((chunksOf 4 block).map word32OfBytes)
  let fin := (List.range 64).foldl (shaRound w) hs
  List.zipWith (fun x y => wmask (x + y)) hs fin

/-- SHA-256 of a byte list, as the list of eight 32-bit state words. -/
def sha256Words (msg : List Nat) : List Nat :=
  (chunksOf 64 (shaPad msg)).foldl shaBlock sha256H0

/-- Lower-case hex digit. -/
def hexDigit (n : Nat) : Char :=
  if n < 10 then Char.ofNat (48 + n) else Char.ofNat (87 + n)

/-- Eight-hex-digit rendering of a 32-bit word. -/
def hexWord32 (v : Nat) : List Char :=
  (List.range 8).map (fun i => hexDigit ((v >>> (4 * (7 - i))) % 16))

/-- `hashlib.sha256(bytes).hexdigest()`. -/
def sha256hex (msg : List Nat) : String :=
  String.mk ((sha256Words msg).flatMap hexWord32)

/-! ## UTF-8 encoding (`str.encode("utf-8")`) -/

/-- Standard UTF-8 byte sequence of one code point. -/
def utf8Char (c : Char) : List Nat :=
  let n := c.toNat
  if n < 128 then [n]
  else if n < 2048 then [192 ||| (n >>> 6), 128 ||| (n % 64)]
  else if n < 65536 then
    [224 ||| (n >>> 12), 128 ||| ((n >>> 6) % 64), 128 ||| (n % 64)]
  else
    [240 ||| (n >>> 18), 128 ||| ((n >>> 12) % 64), 128 ||| ((n >>> 6) % 64), 128 ||| (n % 64)]

/-- `s.encode("utf-8")` as a byte list. -/
def utf8 (s : String) : List Nat := s.data.flatMap utf8Char

/-! ## Python dict and `sorted` models -/

/-- `d.get(k)` on a Python dict modelled as an insertion-ordered
association list (keys are unique, so first match is the match). -/
def dget (d : List (String × α)) (k : String) : Option α :=
  match d with
  | [] => none
  | (a, b) :: t => if a = k then some b else dget t k

/-- `d[k] = v` on a Python dict: replace in place when the key exists,
else append at the end (Python dicts preserve insertion order). -/
def dset (d : List (String × α)) (k : String) (v : α) : List (String × α) :=
  match d with
  | [] => [(k, v)]
  | (a, b) :: t => if a = k then (k, v) :: t else (a, b) :: dset t k v

/-- Python `<` on lists of code points (lexicographic), as an executable
Boolean so that the kernel can evaluate sorting. -/
def pyListLt : List Char → List Char → Bool
  | [], [] => false
  | [], _ :: _ => true
  | _ :: _, [] => false
  | a :: as, b :: bs =>
    if a.toNat < b.toNat then true
    else if b.toNat < a.toNat then false
    else pyListLt as bs

/-- Python `a <= b` on strings (code-point lexicographic). -/
def pyStrLe (a b : String) : Bool := ! pyListLt b.data a.data

/-- Python `sorted` on strings: any comparison sort for the (total,
antisymmetric) code-point lexicographic order produces this result. -/
def pySorted (l : List String) : List String :=
  List.insertionSort (fun a b => pyStrLe a b = true) l

example : pySorted ["b", "a", "ab"] = ["a", "ab", "b"] := by decide

/-! ## Embedding of `src/doc/auto_document.py`

The cache is the JSON object persisted by `save_cache`; its three scopes are
modelled typed (each record is written with both of its keys at once, so the
per-record dicts collapse to records, and the initially-empty `codebase`
dict to an `Option`).  The in-memory cache plus the ordered log of
`llm.prompt` calls form the run state; Python exceptions are the `Except`
layer.  The external OpenAI chat backend, tiktoken coder, `ast.parse`, and
the `os.walk`-derived `dir_to_files` mapping are parameters. -/

namespace AutoDoc

/-- A `cache["files"]` record: `{"hash": ..., "summary": ...}`. -/
structure FileRec where
  hash : String
  summary : String
deriving DecidableEq, Repr

/-- A `cache["directories"]` record: `{"dir_hash": ..., "summary": ...}`. -/
structure DirRec where
  dir_hash : String
  summary : String
deriving DecidableEq, Repr

/-- The `cache["codebase"]` record once populated: both keys are always
written together, and the dict starts empty (`none`). -/
structure CodeRec where
  hash : String
  summary : String
deriving DecidableEq, Repr

/-- The persisted/in-memory summary cache. -/
structure Cache where
  files : List (String × FileRec)
  directories : List (String × DirRec)
  codebase : Option CodeRec
deriving DecidableEq, Repr

/-- The `{"files": {}, "directories": {}, "codebase": {}}` skeleton. -/
def emptyCache : Cache := ⟨[], [], none⟩

/-- Python exceptions that can escape the engine. -/
inductive Err where
  | llmFail (msg : String)
  | keyError (key : String)
  | typeError
deriving DecidableEq, Repr

/-- The external chat backend reached through `LLM.prompt`: returns the
completion text or raises. -/
abbrev LLMFun := String → Except Err String

/-- Run state: the in-memory cache object and the ordered log of prompts
sent through `llm.prompt`. -/
structure St where
  cache : Cache
  log : List String
deriving DecidableEq, Repr

/-- Embedding monad: mutable run state over Python exceptions. -/
abbrev DocM := StateT St (Except Err)

/-- Lift a fallible pure computation (a Python expression that may raise). -/
def liftE (x : Except Err α) : DocM α := fun s =>
  match x with
  | .ok a => .ok (a, s)
  | .error e => .error e

/-- `llm.prompt(p)`: one call to the external backend, recorded in the log;
on failure the exception propagates. -/
def promptLLM (llm : LLMFun) (p : String) : DocM String := fun s =>
  match llm p with
  | .ok r => .ok (r, ⟨s.cache, s.log ++ [p]⟩)
  | .error e => .error e

/-- `CHUNK_SIZE = 32_000  # tokens`. -/
def CHUNK_SIZE : Nat := 32000

/-- tiktoken's `cl100k_base` coder, as an abstract token codec. -/
structure Encoding where
  encode : String → List Nat
  decode : List Nat → String

/-- `compute_sha256(filepath)`: SHA-256 hex digest of the file's bytes
(file contents are modelled as text; bytes are its UTF-8 encoding). -/
def compute_sha256 (fs : String → String) (filepath : String) : String :=
  sha256hex (utf8 (fs filepath))

/-- `combine_hashes(hashes)`: hash of the plain concatenation of the given
digests (no sorting happens inside this function). -/
def combine_hashes (hashes : List String) : String :=
  sha256hex (utf8 (String.join hashes))

/-- `count_tokens(text)`. -/
def count_tokens (enc : Encoding) (text : String) : Nat :=
  (enc.encode text).length

/-- `chunk_text(text, chunk_size)`: encode, slice the token list by
`range(0, len(tokens), chunk_size)`, decode each slice. -/
def chunk_text (enc : Encoding) (text : String) (chunk_size : Nat) : List String :=
  (chunksOf chunk_size (enc.encode text)).map enc.decode

/-- Structured facts the `ast.walk` loop extracts from a parsed module; the
stdlib parser and walk are external, so they enter as this record. -/
structure PyMod where
  docstring : Option String
  classes : List String
  functions : List String
  imports : List String

/-- The dict `ast_parse_file` returns on success. -/
structure FileInfo where
  filepath : String
  docstring : Option String
  classes : List String
  functions : List String
  imports : List String
  source : String

/-- Outcome of `ast_parse_file`: either the error dict
`{"error": ..., "source": ...}` or the parsed-info dict. -/
inductive ParseOut where
  | parseError (error : String) (source : String)
  | parsed (info : FileInfo)

/-- `ast_parse_file(filepath)`: read the source, try `ast.parse`; on
`SyntaxError` return the error dict, else the structured dict
(`list(set(imports))` modelled as duplicate removal). -/
def ast_parse_file (pyAst : String → Option PyMod) (fs : String → String)
    (filepath : String) : ParseOut :=
  let source := fs filepath
  match pyAst source with
  | none => .parseError ("Could not parse " ++ filepath) source
  | some m => .parsed ⟨filepath, m.docstring, m.classes, m.functions, m.imports.eraseDups, source⟩

/-- The single-call prompt of `summarize_large_text`. -/
def smallPrompt (chunk_label text : String) : String :=
  "Summarize the following " ++ chunk_label ++ ":\n" ++ text

/-- The per-chunk (map phase) prompt of `summarize_large_text`. -/
def mapPrompt (chunk_label : String) (idx : Nat) (chunk : String) : String :=
  "You are summarizing chunk #" ++ toString idx ++ " of a large " ++ chunk_label ++ ".\n" ++
  "Focus on key functionalities, classes, dependencies, purpose, etc.\n" ++ chunk

/-- The final (reduce phase) prompt of `summarize_large_text`. -/
def reducePrompt (joined : String) : String :=
  "Combine these chunk-level summaries into one cohesive final summary:\n\n" ++ joined

/-- The `for idx, chunk in enumerate(chunk_text(...))` loop collecting
`partial_summaries`. -/
def mapChunks (llm : LLMFun) (chunk_label : String) : Nat → List String → DocM (List String)
  | _, [] => pure []
  | idx, c :: cs => do
    let summary_part ← promptLLM llm (mapPrompt chunk_label idx c)
    let rest ← mapChunks llm chunk_label (idx + 1) cs
    pure (summary_part :: rest)

/-- `summarize_large_text(llm, text, chunk_label)`. -/
def summarize_large_text (llm : LLMFun) (enc : Encoding) (text chunk_label : String) :
    DocM String := do
  if count_tokens enc text ≤ CHUNK_SIZE then
    promptLLM llm (smallPrompt chunk_label text)
  else do
    let partial_summaries ← mapChunks llm chunk_label 0 (chunk_text enc text CHUNK_SIZE)
    promptLLM llm (reducePrompt (String.intercalate "\n\n" partial_summaries))

/-- Python single-quote character, built numerically. -/
def sq : String := String.singleton (Char.ofNat 39)

/-- Python `repr` of a list of plain strings, as rendered inside the
f-string of `summarize_file_ast` (embedded quotes in names do not occur for
Python identifiers, so their escaping is not modelled). -/
def pyReprList (l : List String) : String :=
  "[" ++ String.intercalate ", " (l.map (fun s => sq ++ s ++ sq)) ++ "]"

/-- The f-string rendering of `file_info.get('docstring', ...)`: the key is
always present in a parsed dict, so `None` renders as `"None"` and the
default never fires. -/
def docstringStr (d : Option String) : String :=
  match d with
  | none => "None"
  | some s => s

/-- `summarize_file_ast(llm, file_info)`. -/
def summarize_file_ast (llm : LLMFun) (info : FileInfo) : DocM String :=
  promptLLM llm (
    "You are generating documentation for this Python file.\n" ++
    "Summarize key classes, functions, imports, and the file" ++ sq ++ "s overall purpose.\n" ++
    "File: " ++ info.filepath ++ "\n" ++
    "Docstring: " ++ docstringStr info.docstring ++ "\n" ++
    "Classes: " ++ pyReprList info.classes ++ "\n" ++
    "Functions: " ++ pyReprList info.functions ++ "\n" ++
    "Imports: " ++ pyReprList info.imports ++ "\n")

/-- The summary source chosen by the regeneration branch of
`get_file_summary`: AST-based when requested and the file parses with a
non-empty (truthy) source, full-text otherwise ("error" in the parse dict,
or `not file_info.get("source")`, or `use_ast=False`). -/
def file_summary_source (llm : LLMFun) (enc : Encoding) (pyAst : String → Option PyMod)
    (fs : String → String) (filepath : String) (use_ast : Bool) : DocM String :=
  if use_ast then
    match ast_parse_file pyAst fs filepath with
    | .parseError _ _ =>
      summarize_large_text llm enc (fs filepath) "file content"
    | .parsed info =>
      if info.source = "" then
        summarize_large_text llm enc (fs filepath) "file content"
      else
        summarize_file_ast llm info
  else
    summarize_large_text llm enc (fs filepath) "file content"

/-- The regeneration branch of `get_file_summary` (everything after the
cache-hit early return): summarize anew, then write the file record. -/
def regen_file (llm : LLMFun) (enc : Encoding) (pyAst : String → Option PyMod)
    (fs : String → String) (filepath : String) (use_ast : Bool) (file_hash : String) :
    DocM String := do
  let summary ← file_summary_source llm enc pyAst fs filepath use_ast
  modify (fun st =>
    ⟨⟨dset st.cache.files filepath ⟨file_hash, summary⟩, st.cache.directories, st.cache.codebase⟩,
     st.log⟩)
  pure summary

/-- `get_file_summary(llm, filepath, cache, use_ast)` (console prints are
not modelled). -/
def get_file_summary (llm : LLMFun) (enc : Encoding) (pyAst : String → Option PyMod)
    (fs : String → String) (filepath : String) (use_ast : Bool) : DocM String := do
  let file_hash := compute_sha256 fs filepath
  let st ← get
  match dget st.cache.files filepath with
  | some cached_entry =>
    if cached_entry.hash = file_hash then
      pure cached_entry.summary
    else
      regen_file llm enc pyAst fs filepath use_ast file_hash
  | none => regen_file llm enc pyAst fs filepath use_ast file_hash

/-- `[cache["files"][fp]["hash"] for fp in file_summaries]`; a missing
record raises `KeyError`. -/
def collectFileHashes (files : List (String × FileRec)) : List String → Except Err (List String)
  | [] => .ok []
  | fp :: rest =>
    match dget files fp with
    | some r =>
      match collectFileHashes files rest with
      | .ok hs => .ok (r.hash :: hs)
      | .error e => .error e
    | none => .error (Err.keyError fp)

/-- The `prompt_parts` entries of `summarize_directory`. -/
def dirPromptParts (file_summaries : List (String × String)) : List String :=
  file_summaries.map (fun p => "FILE: " ++ p.1 ++ "\nSUMMARY:\n" ++ p.2 ++ "\n")

/-- The regeneration branch of `summarize_directory`: build the combined
file-summary text, summarize it, write the directory record. -/
def regen_dir (llm : LLMFun) (enc : Encoding) (dir_path : String)
    (file_summaries : List (String × String)) (dir_hash : String) : DocM String := do
  let combined_summaries := String.intercalate "\n" (dirPromptParts file_summaries)
  let directory_summary ← summarize_large_text llm enc combined_summaries "directory summaries"
  modify (fun st =>
    ⟨⟨st.cache.files, dset st.cache.directories dir_path ⟨dir_hash, directory_summary⟩,
      st.cache.codebase⟩, st.log⟩)
  pure directory_summary

/-- `summarize_directory(llm, dir_path, file_summaries, cache)`. -/
def summarize_directory (llm : LLMFun) (enc : Encoding) (dir_path : String)
    (file_summaries : List (String × String)) : DocM String := do
  let st ← get
  let file_hashes ← liftE (collectFileHashes st.cache.files (file_summaries.map (fun p => p.1)))
  let dir_hash := combine_hashes (pySorted file_hashes)
  match dget st.cache.directories dir_path with
  | some cached_entry =>
    if cached_entry.dir_hash = dir_hash then
      pure cached_entry.summary
    else
      regen_dir llm enc dir_path file_summaries dir_hash
  | none => regen_dir llm enc dir_path file_summaries dir_hash

/-- `[cache["directories"][dpath]["dir_hash"] for dpath in directory_summaries]`;
a missing record raises `KeyError`. -/
def collectDirHashes (directories : List (String × DirRec)) : List String → Except Err (List String)
  | [] => .ok []
  | dp :: rest =>
    match dget directories dp with
    | some r =>
      match collectDirHashes directories rest with
      | .ok hs => .ok (r.dir_hash :: hs)
      | .error e => .error e
    | none => .error (Err.keyError dp)

/-- The `all_dir_summaries_text` entries of the codebase phase. -/
def cbPromptParts (directory_summaries : List (String × String)) : List String :=
  directory_summaries.map (fun p => "DIR: " ++ p.1 ++ "\nSUMMARY:\n" ++ p.2 ++ "\n")

/-- The codebase regeneration branch of `build_documentation`: summarize the
combined directory summaries and write both `codebase` keys. -/
def regen_codebase (llm : LLMFun) (enc : Encoding)
    (directory_summaries : List (String × String)) (codebase_hash : String) : DocM String := do
  let combined_text := String.intercalate "\n" (cbPromptParts directory_summaries)
  let final_summary ← summarize_large_text llm enc combined_text "codebase"
  modify (fun st =>
    ⟨⟨st.cache.files, st.cache.directories, some ⟨codebase_hash, final_summary⟩⟩, st.log⟩)
  pure final_summary

/-- The codebase phase of `build_documentation`: combine the directory
hashes, and reuse the cached codebase summary only when
`cached_codebase and cached_codebase == codebase_hash` (a present but empty
stored hash is falsy and regenerates). -/
def codebase_step (llm : LLMFun) (enc : Encoding)
    (directory_summaries : List (String × String)) : DocM String := do
  let st ← get
  let dir_hashes ← liftE (collectDirHashes st.cache.directories
    (directory_summaries.map (fun p => p.1)))
  let codebase_hash := combine_hashes (pySorted dir_hashes)
  match st.cache.codebase with
  | some crec =>
    if crec.hash ≠ "" ∧ crec.hash = codebase_hash then
      pure crec.summary
    else
      regen_codebase llm enc directory_summaries codebase_hash
  | none => regen_codebase llm enc directory_summaries codebase_hash

/-- The inner `for fpath in files` loop of `build_documentation`, building
the `file_sums` dict. -/
def processFiles (llm : LLMFun) (enc : Encoding) (pyAst : String → Option PyMod)
    (fs : String → String) (use_ast : Bool) (acc : List (String × String)) :
    List String → DocM (List (String × String))
  | [] => pure acc
  | fpath :: rest => do
    let s ← get_file_summary llm enc pyAst fs fpath use_ast
    processFiles llm enc pyAst fs use_ast (dset acc fpath s) rest

/-- The outer `for dir_path, files in dir_to_files.items()` loop, building
the `directory_summaries` dict. -/
def processDirs (llm : LLMFun) (enc : Encoding) (pyAst : String → Option PyMod)
    (fs : String → String) (use_ast : Bool) (acc : List (String × String)) :
    List (String × List String) → DocM (List (String × String))
  | [] => pure acc
  | (dir_path, files) :: rest => do
    let file_sums ← processFiles llm enc pyAst fs use_ast [] files
    let directory_summary ← summarize_directory llm enc dir_path file_sums
    processDirs llm enc pyAst fs use_ast (dset acc dir_path directory_summary) rest

/-- `build_documentation(root_dir, use_ast)` after the `os.walk` gathering:
`dirs` is the `dir_to_files` mapping the (external, exclusion-filtered)
walker produced — each entry a directory with its immediate `.py` children.
Runs the file/directory loops, then the codebase phase. -/
def build_documentation (llm : LLMFun) (enc : Encoding) (pyAst : String → Option PyMod)
    (fs : String → String) (dirs : List (String × List String)) (use_ast : Bool) :
    DocM String := do
  let directory_summaries ← processDirs llm enc pyAst fs use_ast [] dirs
  codebase_step llm enc directory_summaries

/-- Observable outcome of one `build_documentation()` call, including its
effect on the persisted cache file. -/
structure RunResult where
  result : Except Err (String × Cache × List String)
  saves : List Cache
deriving Repr

/-- One run of `build_documentation`, starting from the persisted cache file
(`none` when the file is absent; `load_cache` then yields the empty
skeleton).  `save_cache(cache)` is the single statement following the three
phases, so a successful run saves exactly the final in-memory cache, and
an exception raised inside the phases propagates out before `save_cache`
executes, leaving the file untouched. -/
def runBuild (llm : LLMFun) (enc : Encoding) (pyAst : String → Option PyMod)
    (fs : String → String) (dirs : List (String × List String)) (use_ast : Bool)
    (fileBefore : Option Cache) : RunResult :=
  match (build_documentation llm enc pyAst fs dirs use_ast).run
      ⟨fileBefore.getD emptyCache, []⟩ with
  | .ok (final_summary, st) => ⟨.ok (final_summary, st.cache, st.log), [st.cache]⟩
  | .error e => ⟨.error e, []⟩

/-! ### `load_cache`, at the JSON level (for the corruption claim)

`load_cache` itself never inspects the parsed structure, so for the load
claim the file is modelled byte-agnostically: `none` when
`os.path.exists(cache_file)` is false, and otherwise `some r` with `r` the
outcome of `json.load` on the file contents (`.error` is the
`json.JSONDecodeError` a corrupt file makes `json.load` raise). -/

/-- A parsed JSON value. -/
inductive Json where
  | null
  | bool (b : Bool)
  | num (n : Int)
  | str (s : String)
  | arr (elems : List Json)
  | obj (fields : List (String × Json))

/-- The `{"files": {}, "directories": {}, "codebase": {}}` literal returned
when the cache file does not exist. -/
def skeletonJson : Json :=
  Json.obj [("files", Json.obj []), ("directories", Json.obj []), ("codebase", Json.obj [])]

/-- `load_cache(cache_file)`: if the file exists, the result of
`json.load(f)` — value or exception — propagates unchanged (there is no
try/except around it); otherwise the empty skeleton is returned. -/
def load_cache (file : Option (Except String Json)) : Except String Json :=
  match file with
  | none => .ok skeletonJson
  | some r => r

end AutoDoc

/-! ## Embedding of the variant engine `src/utils/auto_document2.py`

Only the call chain the variant claim concerns is embedded: its local
`LLM.prompt` (which calls `chat(...)` without returning the result, so the
Python value it produces is `None`), `summarize_large_text`,
`summarize_file_ast`, and `get_file_summary`.  Summary values in this
variant are therefore `Option String` (`none` = Python `None`); a
`"\n\n".join` over `None` entries raises `TypeError`. -/

namespace AutoDoc2

open AutoDoc (Encoding PyMod ParseOut FileInfo ast_parse_file count_tokens chunk_text
  compute_sha256 Err sq pyReprList docstringStr)

/-- The external `chat(client, prompt, ...)` helper the variant imports. -/
abbrev ChatFun := String → Except Err String

/-- `CHUNK_SIZE = 32_000  # tokens` (same constant as the main module). -/
def CHUNK_SIZE : Nat := 32000

/-- `LLM.prompt` of auto_document2.py: evaluates `chat(...)` but has no
`return` statement, so on success the call returns `None`. -/
def llmPrompt (chat : ChatFun) (p : String) : Except Err (Option String) :=
  match chat p with
  | .ok _ => .ok none
  | .error e => .error e

/-- Collapse a list of Python values that should be strings; a `None`
member makes `str.join` raise `TypeError`. -/
def seqOpts : List (Option String) → Except Err (List String)
  | [] => .ok []
  | none :: _ => .error Err.typeError
  | some s :: rest =>
    match seqOpts rest with
    | .ok l => .ok (s :: l)
    | .error e => .error e

/-- `sep.join(xs)` over possibly-`None` entries. -/
def pyJoin (sep : String) (xs : List (Option String)) : Except Err String :=
  match seqOpts xs with
  | .ok l => .ok (String.intercalate sep l)
  | .error e => .error e

/-- The variant's per-chunk map loop, collecting `partial_summaries`
(each entry the `None` its `llm.prompt` returns). -/
def mapChunks (chat : ChatFun) (chunk_label : String) :
    Nat → List String → Except Err (List (Option String))
  | _, [] => .ok []
  | idx, c :: cs =>
    match llmPrompt chat (AutoDoc.mapPrompt chunk_label idx c) with
    | .ok s =>
      match mapChunks chat chunk_label (idx + 1) cs with
      | .ok rest => .ok (s :: rest)
      | .error e => .error e
    | .error e => .error e

/-- The variant `summarize_large_text(llm, text, chunk_label)` (its prompt
wording differs slightly from the main module's). -/
def summarize_large_text (chat : ChatFun) (enc : Encoding) (text chunk_label : String) :
    Except Err (Option String) :=
  if count_tokens enc text ≤ CHUNK_SIZE then
    llmPrompt chat ("Summarize the following " ++ chunk_label ++ " contents:\n" ++ text)
  else
    match mapChunks chat chunk_label 0 (chunk_text enc text CHUNK_SIZE) with
    | .ok partial_summaries =>
      match pyJoin "\n\n" partial_summaries with
      | .ok joined =>
        llmPrompt chat
          ("Combine the following chunk-level summaries into one cohesive final summary:\n\n" ++
           joined)
      | .error e => .error e
    | .error e => .error e

/-- The variant `summarize_file_ast(llm, file_info)` (same prompt text as
the main module). -/
def summarize_file_ast (chat : ChatFun) (info : FileInfo) : Except Err (Option String) :=
  llmPrompt chat (
    "You are generating documentation for this Python file.\n" ++
    "Summarize key classes, functions, imports, and the file" ++ sq ++ "s overall purpose.\n" ++
    "File: " ++ info.filepath ++ "\n" ++
    "Docstring: " ++ docstringStr info.docstring ++ "\n" ++
    "Classes: " ++ pyReprList info.classes ++ "\n" ++
    "Functions: " ++ pyReprList info.functions ++ "\n" ++
    "Imports: " ++ pyReprList info.imports ++ "\n")

/-- A variant `cache["files"]` record; the stored summary is whatever
`get_file_summary` computed, hence possibly `None`. -/
structure FileRec where
  hash : String
  summary : Option String
deriving DecidableEq, Repr

/-- The variant `get_file_summary(llm, filepath, cache, use_ast)`, over the
`cache["files"]` dict it reads and writes; returns the summary and the
updated dict. -/
def get_file_summary (chat : ChatFun) (enc : Encoding) (pyAst : String → Option PyMod)
    (fs : String → String) (filepath : String) (files : List (String × FileRec))
    (use_ast : Bool) : Except Err (Option String × List (String × FileRec)) :=
  let file_hash := compute_sha256 fs filepath
  let regen : Except Err (Option String × List (String × FileRec)) :=
    match
      (if use_ast then
        match ast_parse_file pyAst fs filepath with
        | ParseOut.parseError _ _ => summarize_large_text chat enc (fs filepath) "file"
        | ParseOut.parsed info =>
          if info.source = "" then summarize_large_text chat enc (fs filepath) "file"
          else summarize_file_ast chat info
      else summarize_large_text chat enc (fs filepath) "file") with
    | .ok summary => .ok (summary, dset files filepath ⟨file_hash, summary⟩)
    | .error e => .error e
  match dget files filepath with
  | some cached_entry =>
    if cached_entry.hash = file_hash then .ok (cached_entry.summary, files)
    else regen
  | none => regen

end AutoDoc2

/-! ## Dictionary lemmas -/

theorem dget_dset_self (d : List (String × α)) (k : String) (v : α) :
    dget (dset d k v) k = some v := by
  induction d with
  | nil => simp [dget, dset]
  | cons hd tl ih =>
    obtain ⟨a, b⟩ := hd
    by_cases h : a = k
    · simp [dget, dset, h]
    · simp [dget, dset, h, ih]

theorem dget_dset_ne (d : List (String × α)) (k q : String) (v : α) (hqk : q ≠ k) :
    dget (dset d k v) q = dget d q := by
  induction d with
  | nil => simp [dget, dset, Ne.symm hqk]
  | cons hd tl ih =>
    obtain ⟨a, b⟩ := hd
    by_cases h : a = k
    · simp [dget, dset, h, Ne.symm hqk]
    · simp [dget, dset, h, ih]

/-- Setting a fresh key appends it, so the key list grows at the end. -/
theorem dset_keys_new (d : List (String × α)) (k : String) (v : α)
    (h : dget d k = none) : (dset d k v).map (fun p => p.1) = d.map (fun p => p.1) ++ [k] := by
  induction d with
  | nil => simp [dset]
  | cons hd tl ih =>
    obtain ⟨a, b⟩ := hd
    by_cases hk : a = k
    · simp [dget, hk] at h
    · simp [dget, hk] at h
      simp [dset, hk, ih h]

/-! ## Lexicographic-comparison and sorting lemmas -/

theorem pyListLt_asymm : ∀ as bs : List Char,
    pyListLt as bs = true → pyListLt bs as = false := by
  intro as
  induction as with
  | nil =>
    intro bs h
    cases bs with
    | nil => simp [pyListLt] at h
    | cons b bs => simp [pyListLt]
  | cons a as ih =>
    intro bs h
    cases bs with
    | nil => simp [pyListLt] at h
    | cons b bs =>
      simp only [pyListLt] at h ⊢
      split_ifs at h ⊢ with h1 h2 h3 h4 <;> try rfl
      all_goals try omega
      all_goals try exact ih bs h
      all_goals simp_all

theorem pyListLt_conn : ∀ as bs : List Char,
    pyListLt as bs = false → pyListLt bs as = false → as = bs := by
  intro as
  induction as with
  | nil =>
    intro bs h1 _
    cases bs with
    | nil => rfl
    | cons b bs => simp [pyListLt] at h1
  | cons a as ih =>
    intro bs h1 h2
    cases bs with
    | nil => simp [pyListLt] at h2
    | cons b bs =>
      simp only [pyListLt] at h1 h2
      by_cases hab : a.toNat < b.toNat
      · rw [if_pos hab] at h1
        simp at h1
      · by_cases hba : b.toNat < a.toNat
        · rw [if_pos hba] at h2
          simp at h2
        · rw [if_neg hab, if_neg hba] at h1
          rw [if_neg hba, if_neg hab] at h2
          have hn : a.toNat = b.toNat := by omega
          have hchar : a = b := by
            have h3 := Char.ofNat_toNat a
            have h4 := Char.ofNat_toNat b
            rw [← h3, ← h4, hn]
          rw [hchar, ih bs h1 h2]

theorem pyListLt_trans : ∀ as bs cs : List Char,
    pyListLt as bs = true → pyListLt bs cs = true → pyListLt as cs = true := by
  intro as
  induction as with
  | nil =>
    intro bs cs h1 h2
    cases bs with
    | nil => simp [pyListLt] at h1
    | cons b bs =>
      cases cs with
      | nil => simp [pyListLt] at h2
      | cons c cs => simp [pyListLt]
  | cons a as ih =>
    intro bs cs h1 h2
    cases bs with
    | nil => simp [pyListLt] at h1
    | cons b bs =>
      cases cs with
      | nil => simp [pyListLt] at h2
      | cons c cs =>
        simp only [pyListLt] at h1 h2 ⊢
        split_ifs at h1 h2 ⊢ with h3 h4 h5 h6 h7 h8 h9 <;> try rfl
        all_goals try (exfalso; omega)
        all_goals try exact ih bs cs h1 h2
        all_goals simp_all

theorem pyStrLe_total (a b : String) : pyStrLe a b = true ∨ pyStrLe b a = true := by
  unfold pyStrLe
  by_cases h : pyListLt b.data a.data
  · right
    simp [pyListLt_asymm _ _ h]
  · left
    simp [Bool.not_eq_true] at h
    simp [h]

theorem pyListLt_le_trans (A B C : List Char) (h1 : pyListLt B A = false)
    (h2 : pyListLt C B = false) : pyListLt C A = false := by
  by_cases hca : pyListLt C A
  · exfalso
    by_cases hbc : pyListLt B C
    · have := pyListLt_trans B C A hbc hca
      simp_all
    · have hBC := pyListLt_conn B C (by simp_all) h2
      rw [hBC] at h1
      simp_all
  · simp_all

theorem pyStrLe_trans (a b c : String) :
    pyStrLe a b = true → pyStrLe b c = true → pyStrLe a c = true := by
  intro h1 h2
  unfold pyStrLe at h1 h2 ⊢
  simp only [Bool.not_eq_true'] at h1 h2 ⊢
  exact pyListLt_le_trans a.data b.data c.data h1 h2

theorem pyStrLe_antisymm (a b : String) :
    pyStrLe a b = true → pyStrLe b a = true → a = b := by
  intro h1 h2
  unfold pyStrLe at h1 h2
  simp only [Bool.not_eq_true'] at h1 h2
  have h3 := pyListLt_conn a.data b.data h2 h1
  obtain ⟨da⟩ := a
  obtain ⟨db⟩ := b
  exact congrArg String.mk h3

instance : IsTotal String (fun a b => pyStrLe a b = true) := ⟨pyStrLe_total⟩

instance : IsTrans String (fun a b => pyStrLe a b = true) := ⟨pyStrLe_trans⟩

instance : IsAntisymm String (fun a b => pyStrLe a b = true) := ⟨pyStrLe_antisymm⟩

/-- Sorting is invariant under permutation of the input: the heart of
call-site order-independence of the digest combiner. -/
theorem pySorted_congr_perm {l1 l2 : List String} (h : l1.Perm l2) :
    pySorted l1 = pySorted l2 :=
  List.eq_of_perm_of_sorted
    ((List.perm_insertionSort _ l1).trans (h.trans (List.perm_insertionSort _ l2).symm))
    (List.sorted_insertionSort _ l1) (List.sorted_insertionSort _ l2)

/-! ## Digest shape lemmas -/

theorem shaRound_length (w : List Nat) (i : Nat) :
    ∀ st : List Nat, st.length = 8 → (shaRound w st i).length = 8 := by
  intro st h
  match st with
  | [] => simp at h
  | [x1] => simp at h
  | [x1, x2] => simp at h
  | [x1, x2, x3] => simp at h
  | [x1, x2, x3, x4] => simp at h
  | [x1, x2, x3, x4, x5] => simp at h
  | [x1, x2, x3, x4, x5, x6] => simp at h
  | [x1, x2, x3, x4, x5, x6, x7] => simp at h
  | [x1, x2, x3, x4, x5, x6, x7, x8] => rfl
  | x1 :: x2 :: x3 :: x4 :: x5 :: x6 :: x7 :: x8 :: x9 :: rest => simp at h

theorem shaBlock_length (hs block : List Nat) (h : hs.length = 8) :
    (shaBlock hs block).length = 8 := by
  unfold shaBlock
  have hfin : ((List.range 64).foldl (shaRound (extendW ((chunksOf 4 block).map word32OfBytes))) hs).length = 8 := by
    generalize extendW ((chunksOf 4 block).map word32OfBytes) = w
    have : ∀ (l : List Nat) (st : List Nat), st.length = 8 → (l.foldl (shaRound w) st).length = 8 := by
      intro l
      induction l with
      | nil => intro st hst; simpa using hst
      | cons x xs ih => intro st hst; exact ih _ (shaRound_length w x st hst)
    exact this _ hs h
  simp [List.length_zipWith, h, hfin]

theorem sha256Words_length (msg : List Nat) : (sha256Words msg).length = 8 := by
  unfold sha256Words
  generalize chunksOf 64 (shaPad msg) = blocks
  have : ∀ (bs : List (List Nat)) (st : List Nat), st.length = 8 → (bs.foldl shaBlock st).length = 8 := by
    intro bs
    induction bs with
    | nil => intro st hst; simpa using hst
    | cons b bs ih => intro st hst; exact ih _ (shaBlock_length st b hst)
  exact this blocks sha256H0 rfl

/-- Hex digests are 64 characters long. -/
theorem sha256hex_length (msg : List Nat) : (sha256hex msg).data.length = 64 := by
  unfold sha256hex
  show ((sha256Words msg).flatMap hexWord32).length = 64
  have h8 := sha256Words_length msg
  have hlen : ∀ v, (hexWord32 v).length = 8 := by
    intro v
    simp [hexWord32]
  match hw : sha256Words msg with
  | [a1, a2, a3, a4, a5, a6, a7, a8] =>
    simp [List.flatMap, hlen]
  | [] | [_] | [_, _] | [_, _, _] | [_, _, _, _] | [_, _, _, _, _]
  | [_, _, _, _, _, _] | [_, _, _, _, _, _, _] =>
    rw [hw] at h8
    simp at h8
  | _ :: _ :: _ :: _ :: _ :: _ :: _ :: _ :: _ :: _ =>
    rw [hw] at h8
    simp at h8

/-- A hex digest is never the empty string. -/
theorem sha256hex_ne_empty (msg : List Nat) : sha256hex msg ≠ "" := by
  intro h
  have := sha256hex_length msg
  rw [h] at this
  simp at this

/-! ## Run lemmas for the engine -/

namespace AutoDoc

theorem promptLLM_run (llm : LLMFun) (p : String) (s : St) :
    (promptLLM llm p).run s =
      match llm p with
      | .ok r => .ok (r, ⟨s.cache, s.log ++ [p]⟩)
      | .error e => .error e := rfl

theorem promptLLM_cache (llm : LLMFun) (p : String) (s : St) (r : String) (s' : St)
    (h : (promptLLM llm p).run s = .ok (r, s')) : s'.cache = s.cache := by
  rw [promptLLM_run] at h
  cases hp : llm p with
  | ok v => rw [hp] at h; cases h; rfl
  | error e => rw [hp] at h; cases h

theorem mapChunks_cache (llm : LLMFun) (label : String) :
    ∀ (cs : List String) (idx : Nat) (s : St) (ps : List String) (s' : St),
      (mapChunks llm label idx cs).run s = .ok (ps, s') → s'.cache = s.cache := by
  intro cs
  induction cs with
  | nil =>
    intro idx s ps s' h
    simp only [mapChunks, StateT.run, pure, StateT.pure, Except.pure] at h
    cases h
    rfl
  | cons c cs ih =>
    intro idx s ps s' h
    simp only [mapChunks, StateT.run, bind, StateT.bind] at h
    cases hp : promptLLM llm (mapPrompt label idx c) s with
    | ok v =>
      rw [hp] at h
      obtain ⟨r1, s1⟩ := v
      simp only [Except.bind] at h
      cases hr : mapChunks llm label (idx + 1) cs s1 with
      | ok w =>
        rw [hr] at h
        obtain ⟨rs, s2⟩ := w
        simp only [pure, StateT.pure, Except.pure] at h
        cases h
        rw [ih (idx + 1) s1 rs s' hr, promptLLM_cache llm _ s r1 s1 hp]
      | error e => rw [hr] at h; cases h
    | error e => rw [hp] at h; simp only [Except.bind] at h; cases h

theorem summarize_large_text_cache (llm : LLMFun) (enc : Encoding) (text label : String)
    (s : St) (r : String) (s' : St)
    (h : (summarize_large_text llm enc text label).run s = .ok (r, s')) : s'.cache = s.cache := by
  unfold summarize_large_text at h
  by_cases hc : count_tokens enc text ≤ CHUNK_SIZE
  · rw [if_pos hc] at h
    exact promptLLM_cache llm _ s r s' h
  · rw [if_neg hc] at h
    simp only [StateT.run, bind, StateT.bind] at h
    cases hm : mapChunks llm label 0 (chunk_text enc text CHUNK_SIZE) s with
    | ok v =>
      rw [hm] at h
      obtain ⟨ps, s1⟩ := v
      simp only [Except.bind] at h
      have h2 := promptLLM_cache llm _ s1 r s' h
      rw [h2, mapChunks_cache llm label _ 0 s ps s1 hm]
    | error e => rw [hm] at h; simp only [Except.bind] at h; cases h

theorem summarize_file_ast_cache (llm : LLMFun) (info : FileInfo)
    (s : St) (r : String) (s' : St)
    (h : (summarize_file_ast llm info).run s = .ok (r, s')) : s'.cache = s.cache :=
  promptLLM_cache llm _ s r s' h

end AutoDoc

namespace AutoDoc

theorem bind_modify_run (m : DocM String) (g : String → St → St) (s : St) (sum : String)
    (s' : St)
    (h : (do
            let x ← m
            modify (g x)
            pure x : DocM String).run s = .ok (sum, s')) :
    ∃ s1, m.run s = .ok (sum, s1) ∧ s' = g sum s1 := by
  simp only [StateT.run, bind, StateT.bind] at h
  cases hm : m s with
  | ok v =>
    obtain ⟨x, s1⟩ := v
    rw [hm] at h
    simp only [Except.bind, modify, modifyGet, MonadStateOf.modifyGet, StateT.modifyGet,
      pure, StateT.pure, Except.pure] at h
    cases h
    exact ⟨s1, hm, rfl⟩
  | error e =>
    rw [hm] at h
    simp only [Except.bind] at h
    cases h

end AutoDoc

namespace AutoDoc

theorem regen_file_post (llm : LLMFun) (enc : Encoding) (pyAst : String → Option PyMod)
    (fs : String → String) (filepath : String) (u : Bool) (fh : String) (s : St)
    (sum : String) (s' : St)
    (h : (regen_file llm enc pyAst fs filepath u fh).run s = .ok (sum, s')) :
    s'.cache.files = dset s.cache.files filepath ⟨fh, sum⟩ ∧
    s'.cache.directories = s.cache.directories ∧
    s'.cache.codebase = s.cache.codebase := by
  unfold regen_file at h
  obtain ⟨s1, hm, hs⟩ := bind_modify_run _ _ _ _ _ h
  have hc : s1.cache = s.cache := by
    unfold file_summary_source at hm
    by_cases hu : u
    · rw [if_pos hu] at hm
      cases hp : ast_parse_file pyAst fs filepath with
      | parseError e src =>
        rw [hp] at hm
        dsimp only [] at hm
        exact summarize_large_text_cache llm enc _ _ s sum s1 hm
      | parsed info =>
        rw [hp] at hm
        dsimp only [] at hm
        by_cases hsrc : info.source = ""
        · rw [if_pos hsrc] at hm
          exact summarize_large_text_cache llm enc _ _ s sum s1 hm
        · rw [if_neg hsrc] at hm
          exact summarize_file_ast_cache llm info s sum s1 hm
    · rw [if_neg hu] at hm
      exact summarize_large_text_cache llm enc _ _ s sum s1 hm
  subst hs
  simp [hc]

theorem gfs_hit (llm : LLMFun) (enc : Encoding) (pyAst : String → Option PyMod)
    (fs : String → String) (filepath : String) (u : Bool) (s : St) (entry : FileRec)
    (hget : dget s.cache.files filepath = some entry)
    (hhash : entry.hash = compute_sha256 fs filepath) :
    (get_file_summary llm enc pyAst fs filepath u).run s = .ok (entry.summary, s) := by
  unfold get_file_summary
  simp only [StateT.run, bind, StateT.bind, get, getThe, MonadStateOf.get, StateT.get,
    Except.bind, pure, StateT.pure, Except.pure]
  rw [hget]
  simp [hhash, StateT.pure, pure, Except.pure]

theorem gfs_post (llm : LLMFun) (enc : Encoding) (pyAst : String → Option PyMod)
    (fs : String → String) (filepath : String) (u : Bool) (s : St) (sum : String) (s' : St)
    (h : (get_file_summary llm enc pyAst fs filepath u).run s = .ok (sum, s')) :
    dget s'.cache.files filepath = some ⟨compute_sha256 fs filepath, sum⟩ ∧
    (∀ q, q ≠ filepath → dget s'.cache.files q = dget s.cache.files q) ∧
    s'.cache.directories = s.cache.directories ∧
    s'.cache.codebase = s.cache.codebase := by
  unfold get_file_summary at h
  simp only [StateT.run, bind, StateT.bind, get, getThe, MonadStateOf.get, StateT.get,
    Except.bind, pure, Except.pure] at h
  cases hg : dget s.cache.files filepath with
  | some entry =>
    rw [hg] at h
    dsimp only [] at h
    by_cases hh : entry.hash = compute_sha256 fs filepath
    · rw [if_pos hh] at h
      simp only [pure, StateT.pure, Except.pure] at h
      cases h
      refine ⟨?_, fun q hq => rfl, rfl, rfl⟩
      rw [hg, ← hh]
    · rw [if_neg hh] at h
      obtain ⟨hf, hd, hc⟩ := regen_file_post llm enc pyAst fs filepath u _ s sum s' h
      refine ⟨?_, ?_, hd, hc⟩
      · rw [hf, dget_dset_self]
      · intro q hq
        rw [hf, dget_dset_ne _ _ _ _ hq]
  | none =>
    rw [hg] at h
    dsimp only [] at h
    obtain ⟨hf, hd, hc⟩ := regen_file_post llm enc pyAst fs filepath u _ s sum s' h
    refine ⟨?_, ?_, hd, hc⟩
    · rw [hf, dget_dset_self]
    · intro q hq
      rw [hf, dget_dset_ne _ _ _ _ hq]

end AutoDoc

namespace AutoDoc

theorem collectFileHashes_fresh (files : List (String × FileRec)) (hashOf : String → String) :
    ∀ fps : List String,
      (∀ fp ∈ fps, ∃ rec, dget files fp = some rec ∧ rec.hash = hashOf fp) →
      collectFileHashes files fps = .ok (fps.map hashOf) := by
  intro fps
  induction fps with
  | nil => intro _; rfl
  | cons fp rest ih =>
    intro hall
    obtain ⟨rec, hget, hh⟩ := hall fp (by simp)
    have hrest := ih (fun q hq => hall q (by simp [hq]))
    simp only [collectFileHashes, hget, hrest, List.map_cons, hh]

theorem collectDirHashes_fresh (directories : List (String × DirRec)) (hashOf : String → String) :
    ∀ dps : List String,
      (∀ dp ∈ dps, ∃ rec, dget directories dp = some rec ∧ rec.dir_hash = hashOf dp) →
      collectDirHashes directories dps = .ok (dps.map hashOf) := by
  intro dps
  induction dps with
  | nil => intro _; rfl
  | cons dp rest ih =>
    intro hall
    obtain ⟨rec, hget, hh⟩ := hall dp (by simp)
    have hrest := ih (fun q hq => hall q (by simp [hq]))
    simp only [collectDirHashes, hget, hrest, List.map_cons, hh]

theorem regen_dir_post (llm : LLMFun) (enc : Encoding) (dir_path : String)
    (fsums : List (String × String)) (dh : String) (s : St) (dsum : String) (s' : St)
    (h : (regen_dir llm enc dir_path fsums dh).run s = .ok (dsum, s')) :
    s'.cache.files = s.cache.files ∧
    s'.cache.codebase = s.cache.codebase ∧
    s'.cache.directories = dset s.cache.directories dir_path ⟨dh, dsum⟩ := by
  unfold regen_dir at h
  obtain ⟨s1, hm, hs⟩ := bind_modify_run _ _ _ _ _ h
  have hc := summarize_large_text_cache llm enc _ _ s dsum s1 hm
  subst hs
  simp [hc]

theorem sd_hit (llm : LLMFun) (enc : Encoding) (dir_path : String)
    (fsums : List (String × String)) (s : St) (hashes : List String) (drec : DirRec)
    (hcoll : collectFileHashes s.cache.files (fsums.map (fun p => p.1)) = .ok hashes)
    (hget : dget s.cache.directories dir_path = some drec)
    (hh : drec.dir_hash = combine_hashes (pySorted hashes)) :
    (summarize_directory llm enc dir_path fsums).run s = .ok (drec.summary, s) := by
  unfold summarize_directory
  simp only [StateT.run, bind, StateT.bind, get, getThe, MonadStateOf.get, StateT.get,
    Except.bind, pure, Except.pure, liftE]
  rw [hcoll]
  dsimp only []
  rw [hget]
  dsimp only []
  rw [if_pos hh]
  rfl

theorem sd_post (llm : LLMFun) (enc : Encoding) (dir_path : String)
    (fsums : List (String × String)) (s : St) (dsum : String) (s' : St)
    (h : (summarize_directory llm enc dir_path fsums).run s = .ok (dsum, s')) :
    ∃ hashes, collectFileHashes s.cache.files (fsums.map (fun p => p.1)) = .ok hashes ∧
      s'.cache.files = s.cache.files ∧
      s'.cache.codebase = s.cache.codebase ∧
      dget s'.cache.directories dir_path = some ⟨combine_hashes (pySorted hashes), dsum⟩ ∧
      (∀ q, q ≠ dir_path → dget s'.cache.directories q = dget s.cache.directories q) := by
  unfold summarize_directory at h
  simp only [StateT.run, bind, StateT.bind, get, getThe, MonadStateOf.get, StateT.get,
    Except.bind, pure, Except.pure, liftE] at h
  cases hcoll : collectFileHashes s.cache.files (fsums.map (fun p => p.1)) with
  | error e => rw [hcoll] at h; cases h
  | ok hashes =>
    rw [hcoll] at h
    dsimp only [] at h
    refine ⟨hashes, rfl, ?_⟩
    cases hg : dget s.cache.directories dir_path with
    | some drec =>
      rw [hg] at h
      dsimp only [] at h
      by_cases hh : drec.dir_hash = combine_hashes (pySorted hashes)
      · rw [if_pos hh] at h
        cases h
        refine ⟨rfl, rfl, ?_, fun q hq => rfl⟩
        rw [hg, ← hh]
      · rw [if_neg hh] at h
        obtain ⟨hf, hc, hd⟩ := regen_dir_post llm enc dir_path fsums _ s dsum s' h
        refine ⟨hf, hc, ?_, ?_⟩
        · rw [hd, dget_dset_self]
        · intro q hq
          rw [hd, dget_dset_ne _ _ _ _ hq]
    | none =>
      rw [hg] at h
      dsimp only [] at h
      obtain ⟨hf, hc, hd⟩ := regen_dir_post llm enc dir_path fsums _ s dsum s' h
      refine ⟨hf, hc, ?_, ?_⟩
      · rw [hd, dget_dset_self]
      · intro q hq
        rw [hd, dget_dset_ne _ _ _ _ hq]

end AutoDoc

namespace AutoDoc

theorem regen_codebase_post (llm : LLMFun) (enc : Encoding)
    (dsums : List (String × String)) (ch : String) (s : St) (fin : String) (s' : St)
    (h : (regen_codebase llm enc dsums ch).run s = .ok (fin, s')) :
    s'.cache.files = s.cache.files ∧
    s'.cache.directories = s.cache.directories ∧
    s'.cache.codebase = some ⟨ch, fin⟩ := by
  unfold regen_codebase at h
  obtain ⟨s1, hm, hs⟩ := bind_modify_run _ _ _ _ _ h
  have hc := summarize_large_text_cache llm enc _ _ s fin s1 hm
  subst hs
  simp [hc]

theorem cb_hit (llm : LLMFun) (enc : Encoding) (dsums : List (String × String)) (s : St)
    (hashes : List String) (crec : CodeRec)
    (hcoll : collectDirHashes s.cache.directories (dsums.map (fun p => p.1)) = .ok hashes)
    (hcb : s.cache.codebase = some crec)
    (hne : crec.hash ≠ "")
    (hh : crec.hash = combine_hashes (pySorted hashes)) :
    (codebase_step llm enc dsums).run s = .ok (crec.summary, s) := by
  unfold codebase_step
  simp only [StateT.run, bind, StateT.bind, get, getThe, MonadStateOf.get, StateT.get,
    Except.bind, pure, Except.pure, liftE]
  rw [hcoll]
  dsimp only []
  rw [hcb]
  dsimp only []
  rw [if_pos ⟨hne, hh⟩]
  rfl

theorem cb_post (llm : LLMFun) (enc : Encoding) (dsums : List (String × String)) (s : St)
    (fin : String) (s' : St)
    (h : (codebase_step llm enc dsums).run s = .ok (fin, s')) :
    ∃ hashes, collectDirHashes s.cache.directories (dsums.map (fun p => p.1)) = .ok hashes ∧
      s'.cache.files = s.cache.files ∧
      s'.cache.directories = s.cache.directories ∧
      s'.cache.codebase = some ⟨combine_hashes (pySorted hashes), fin⟩ := by
  unfold codebase_step at h
  simp only [StateT.run, bind, StateT.bind, get, getThe, MonadStateOf.get, StateT.get,
    Except.bind, pure, Except.pure, liftE] at h
  cases hcoll : collectDirHashes s.cache.directories (dsums.map (fun p => p.1)) with
  | error e => rw [hcoll] at h; cases h
  | ok hashes =>
    rw [hcoll] at h
    dsimp only [] at h
    refine ⟨hashes, rfl, ?_⟩
    cases hg : s.cache.codebase with
    | some crec =>
      rw [hg] at h
      dsimp only [] at h
      by_cases hh : crec.hash ≠ "" ∧ crec.hash = combine_hashes (pySorted hashes)
      · rw [if_pos hh] at h
        cases h
        refine ⟨rfl, rfl, ?_⟩
        rw [hg, ← hh.2]
      · rw [if_neg hh] at h
        obtain ⟨hf, hd, hc⟩ := regen_codebase_post llm enc dsums _ s fin s' h
        exact ⟨hf, hd, hc⟩
    | none =>
      rw [hg] at h
      dsimp only [] at h
      obtain ⟨hf, hd, hc⟩ := regen_codebase_post llm enc dsums _ s fin s' h
      exact ⟨hf, hd, hc⟩

end AutoDoc

namespace AutoDoc

/-- The digest a directory record must carry: the combiner applied to the
sorted digests of exactly the directory's immediate child files. -/
def dirHash (fs : String → String) (files : List String) : String :=
  combine_hashes (pySorted (files.map (compute_sha256 fs)))

/-- The digest the codebase record must carry. -/
def codebaseHash (fs : String → String) (dirs : List (String × List String)) : String :=
  combine_hashes (pySorted (dirs.map (fun e => dirHash fs e.2)))

/-- Freshness of one walker entry in a cache: every immediate child file
record carries the file's current digest, and the directory record carries
the combined digest of exactly those files. -/
def dirEntryFresh (fs : String → String) (cache : Cache) (e : String × List String) : Prop :=
  (∀ fp ∈ e.2, ∃ rec, dget cache.files fp = some rec ∧ rec.hash = compute_sha256 fs fp) ∧
  (∃ drec, dget cache.directories e.1 = some drec ∧ drec.dir_hash = dirHash fs e.2)

theorem processFiles_post (llm : LLMFun) (enc : Encoding) (pyAst : String → Option PyMod)
    (fs : String → String) (u : Bool) :
    ∀ (files : List String) (acc : List (String × String)) (s : St)
      (sums : List (String × String)) (s' : St),
      (processFiles llm enc pyAst fs u acc files).run s = .ok (sums, s') →
      s'.cache.directories = s.cache.directories ∧
      s'.cache.codebase = s.cache.codebase ∧
      (∀ q, q ∉ files → dget s'.cache.files q = dget s.cache.files q) ∧
      (∀ fp ∈ files, ∃ rec, dget s'.cache.files fp = some rec ∧
        rec.hash = compute_sha256 fs fp) := by
  intro files
  induction files with
  | nil =>
    intro acc s sums s' h
    simp only [processFiles, StateT.run, pure, StateT.pure, Except.pure] at h
    cases h
    exact ⟨rfl, rfl, fun q _ => rfl, by simp⟩
  | cons f rest ih =>
    intro acc s sums s' h
    simp only [processFiles, StateT.run, bind, StateT.bind] at h
    cases hg : get_file_summary llm enc pyAst fs f u s with
    | error e => rw [hg] at h; cases h
    | ok v =>
      rw [hg] at h
      obtain ⟨sum1, s1⟩ := v
      simp only [Except.bind] at h
      obtain ⟨hfr, hpres, hdir, hcb⟩ := gfs_post llm enc pyAst fs f u s sum1 s1 hg
      obtain ⟨hdir2, hcb2, hpres2, hfresh2⟩ := ih (dset acc f sum1) s1 sums s' h
      refine ⟨hdir2.trans hdir, hcb2.trans hcb, ?_, ?_⟩
      · intro q hq
        rw [hpres2 q (fun hmem => hq (by simp [hmem])),
            hpres q (fun hqf => hq (by simp [hqf]))]
      · intro fp hfp
        by_cases hmem : fp ∈ rest
        · exact hfresh2 fp hmem
        · have hfpf : fp = f := by
            cases hfp with
            | head => rfl
            | tail _ hmem2 => exact absurd hmem2 hmem
          subst hfpf
          exact ⟨_, (hpres2 fp hmem).trans hfr, rfl⟩

theorem processFiles_keys (llm : LLMFun) (enc : Encoding) (pyAst : String → Option PyMod)
    (fs : String → String) (u : Bool) :
    ∀ (files : List String) (acc : List (String × String)) (s : St)
      (sums : List (String × String)) (s' : St),
      (processFiles llm enc pyAst fs u acc files).run s = .ok (sums, s') →
      (∀ fp ∈ files, dget acc fp = none) → files.Nodup →
      sums.map (fun p => p.1) = acc.map (fun p => p.1) ++ files := by
  intro files
  induction files with
  | nil =>
    intro acc s sums s' h _ _
    simp only [processFiles, StateT.run, pure, StateT.pure, Except.pure] at h
    cases h
    simp
  | cons f rest ih =>
    intro acc s sums s' h hnone hnodup
    simp only [processFiles, StateT.run, bind, StateT.bind] at h
    cases hg : get_file_summary llm enc pyAst fs f u s with
    | error e => rw [hg] at h; cases h
    | ok v =>
      rw [hg] at h
      obtain ⟨sum1, s1⟩ := v
      simp only [Except.bind] at h
      rw [List.nodup_cons] at hnodup
      have hrest : ∀ fp ∈ rest, dget (dset acc f sum1) fp = none := by
        intro fp hfp
        have hne : fp ≠ f := by
          intro he
          rw [he] at hfp
          exact hnodup.1 hfp
        rw [dget_dset_ne _ _ _ _ hne]
        exact hnone fp (by simp [hfp])
      have := ih (dset acc f sum1) s1 sums s' h hrest hnodup.2
      rw [this, dset_keys_new acc f sum1 (hnone f (by simp))]
      simp

theorem processFiles_fresh_run (llm : LLMFun) (enc : Encoding) (pyAst : String → Option PyMod)
    (fs : String → String) (u : Bool) :
    ∀ (files : List String) (acc : List (String × String)) (s : St),
      (∀ fp ∈ files, ∃ rec, dget s.cache.files fp = some rec ∧
        rec.hash = compute_sha256 fs fp) →
      ∃ sums, (processFiles llm enc pyAst fs u acc files).run s = .ok (sums, s) := by
  intro files
  induction files with
  | nil => intro acc s _; exact ⟨acc, rfl⟩
  | cons f rest ih =>
    intro acc s hfresh
    obtain ⟨rec, hget, hh⟩ := hfresh f (by simp)
    have hhit := gfs_hit llm enc pyAst fs f u s rec hget hh
    obtain ⟨sums, hrun⟩ := ih (dset acc f rec.summary) s
      (fun fp hfp => hfresh fp (by simp [hfp]))
    refine ⟨sums, ?_⟩
    simp only [processFiles, StateT.run, bind, StateT.bind]
    rw [show get_file_summary llm enc pyAst fs f u s = .ok (rec.summary, s) from hhit]
    simp only [Except.bind]
    exact hrun

end AutoDoc

namespace AutoDoc

theorem collectDirHashes_dirs (fs : String → String)
    (directories : List (String × DirRec)) :
    ∀ dirs : List (String × List String),
      (∀ e ∈ dirs, ∃ drec, dget directories e.1 = some drec ∧
        drec.dir_hash = dirHash fs e.2) →
      collectDirHashes directories (dirs.map (fun e => e.1)) =
        .ok (dirs.map (fun e => dirHash fs e.2)) := by
  intro dirs
  induction dirs with
  | nil => intro _; rfl
  | cons e rest ih =>
    intro hall
    obtain ⟨drec, hget, hh⟩ := hall e (by simp)
    have hrest := ih (fun q hq => hall q (by simp [hq]))
    simp only [List.map_cons, collectDirHashes, hget, hrest, hh]

theorem processDirs_post (llm : LLMFun) (enc : Encoding) (pyAst : String → Option PyMod)
    (fs : String → String) (u : Bool) :
    ∀ (dirs : List (String × List String)) (acc : List (String × String)) (s : St)
      (dsums : List (String × String)) (s' : St),
      (processDirs llm enc pyAst fs u acc dirs).run s = .ok (dsums, s') →
      (dirs.map (fun e => e.1)).Nodup →
      (dirs.flatMap (fun e => e.2)).Nodup →
      s'.cache.codebase = s.cache.codebase ∧
      (∀ q, q ∉ dirs.map (fun e => e.1) →
        dget s'.cache.directories q = dget s.cache.directories q) ∧
      (∀ q, q ∉ dirs.flatMap (fun e => e.2) →
        dget s'.cache.files q = dget s.cache.files q) ∧
      (∀ e ∈ dirs, dirEntryFresh fs s'.cache e) := by
  intro dirs
  induction dirs with
  | nil =>
    intro acc s dsums s' h _ _
    simp only [processDirs, StateT.run, pure, StateT.pure, Except.pure] at h
    cases h
    exact ⟨rfl, fun q _ => rfl, fun q _ => rfl, by simp⟩
  | cons e rest ih =>
    obtain ⟨dp, fl⟩ := e
    intro acc s dsums s' h hkeys hflat
    simp only [processDirs, StateT.run, bind, StateT.bind] at h
    cases hpf : processFiles llm enc pyAst fs u [] fl s with
    | error er => rw [hpf] at h; cases h
    | ok v =>
      rw [hpf] at h
      obtain ⟨sums, s1⟩ := v
      simp only [Except.bind] at h
      cases hsd : summarize_directory llm enc dp sums s1 with
      | error er => rw [hsd] at h; cases h
      | ok w =>
        rw [hsd] at h
        obtain ⟨dsum, s2⟩ := w
        simp only [Except.bind] at h
        -- structural facts about the head step
        simp only [List.map_cons, List.nodup_cons] at hkeys
        simp only [List.flatMap_cons, List.nodup_append] at hflat
        obtain ⟨hdir1, hcb1, hpres1, hfresh1⟩ :=
          processFiles_post llm enc pyAst fs u fl [] s sums s1 hpf
        have hsumkeys : sums.map (fun p => p.1) = fl :=
          processFiles_keys llm enc pyAst fs u fl [] s sums s1 hpf
            (fun fp _ => rfl) hflat.1
        obtain ⟨hashes, hcoll, hf2, hc2, hdp2, hpres2⟩ :=
          sd_post llm enc dp sums s1 dsum s2 hsd
        have hcoll2 : collectFileHashes s1.cache.files (sums.map (fun p => p.1)) =
            .ok (fl.map (compute_sha256 fs)) := by
          rw [hsumkeys]
          exact collectFileHashes_fresh s1.cache.files (compute_sha256 fs) fl hfresh1
        have hashes_eq : hashes = fl.map (compute_sha256 fs) := by
          rw [hcoll] at hcoll2
          cases hcoll2
          rfl
        subst hashes_eq
        obtain ⟨hcb3, hdirs3, hfiles3, hfresh3⟩ :=
          ih (dset acc dp dsum) s2 dsums s' h hkeys.2 hflat.2.1
        refine ⟨hcb3.trans (hc2.trans hcb1), ?_, ?_, ?_⟩
        · intro q hq
          simp only [List.map_cons, List.mem_cons] at hq
          push_neg at hq
          rw [hdirs3 q hq.2, hpres2 q hq.1, hdir1]
        · intro q hq
          simp only [List.flatMap_cons, List.mem_append] at hq
          push_neg at hq
          rw [hfiles3 q hq.2]
          rw [show s2.cache.files = s1.cache.files from hf2]
          exact hpres1 q hq.1
        · intro e he
          cases he with
          | tail _ hmem => exact hfresh3 e hmem
          | head =>
            constructor
            · intro fp hfp
              obtain ⟨rec, hget, hh⟩ := hfresh1 fp hfp
              refine ⟨rec, ?_, hh⟩
              rw [hfiles3 fp (fun hmem => hflat.2.2 hfp hmem),
                  show s2.cache.files = s1.cache.files from hf2]
              exact hget
            · refine ⟨⟨dirHash fs fl, dsum⟩, ?_, rfl⟩
              rw [hdirs3 dp hkeys.1]
              exact hdp2

end AutoDoc

namespace AutoDoc

theorem processDirs_keys (llm : LLMFun) (enc : Encoding) (pyAst : String → Option PyMod)
    (fs : String → String) (u : Bool) :
    ∀ (dirs : List (String × List String)) (acc : List (String × String)) (s : St)
      (dsums : List (String × String)) (s' : St),
      (processDirs llm enc pyAst fs u acc dirs).run s = .ok (dsums, s') →
      (∀ dp ∈ dirs.map (fun e => e.1), dget acc dp = none) →
      (dirs.map (fun e => e.1)).Nodup →
      dsums.map (fun p => p.1) = acc.map (fun p => p.1) ++ dirs.map (fun e => e.1) := by
  intro dirs
  induction dirs with
  | nil =>
    intro acc s dsums s' h _ _
    simp only [processDirs, StateT.run, pure, StateT.pure, Except.pure] at h
    cases h
    simp
  | cons e rest ih =>
    obtain ⟨dp, fl⟩ := e
    intro acc s dsums s' h hnone hnodup
    simp only [processDirs, StateT.run, bind, StateT.bind] at h
    cases hpf : processFiles llm enc pyAst fs u [] fl s with
    | error er => rw [hpf] at h; cases h
    | ok v =>
      rw [hpf] at h
      obtain ⟨sums, s1⟩ := v
      simp only [Except.bind] at h
      cases hsd : summarize_directory llm enc dp sums s1 with
      | error er => rw [hsd] at h; cases h
      | ok w =>
        rw [hsd] at h
        obtain ⟨dsum, s2⟩ := w
        simp only [Except.bind] at h
        simp only [List.map_cons, List.nodup_cons] at hnodup
        have hrest : ∀ q ∈ rest.map (fun e => e.1), dget (dset acc dp dsum) q = none := by
          intro q hq
          have hne : q ≠ dp := by
            intro he
            rw [he] at hq
            exact hnodup.1 hq
          rw [dget_dset_ne _ _ _ _ hne]
          exact hnone q (by simp at hq ⊢; exact Or.inr hq)
        have := ih (dset acc dp dsum) s2 dsums s' h hrest hnodup.2
        rw [this, dset_keys_new acc dp dsum (hnone dp (by simp))]
        simp

theorem processDirs_fresh_run (llm : LLMFun) (enc : Encoding) (pyAst : String → Option PyMod)
    (fs : String → String) (u : Bool) :
    ∀ (dirs : List (String × List String)) (acc : List (String × String)) (s : St),
      (∀ e ∈ dirs, dirEntryFresh fs s.cache e) →
      (∀ e ∈ dirs, e.2.Nodup) →
      ∃ dsums, (processDirs llm enc pyAst fs u acc dirs).run s = .ok (dsums, s) := by
  intro dirs
  induction dirs with
  | nil => intro acc s _ _; exact ⟨acc, rfl⟩
  | cons e rest ih =>
    obtain ⟨dp, fl⟩ := e
    intro acc s hfresh hnodup
    obtain ⟨hfiles, drec, hdget, hdh⟩ := hfresh (dp, fl) (by simp)
    obtain ⟨sums, hpf⟩ := processFiles_fresh_run llm enc pyAst fs u fl [] s hfiles
    have hsumkeys : sums.map (fun p => p.1) = fl :=
      processFiles_keys llm enc pyAst fs u fl [] s sums s hpf
        (fun fp _ => rfl) (hnodup (dp, fl) (by simp))
    have hcoll : collectFileHashes s.cache.files (sums.map (fun p => p.1)) =
        .ok (fl.map (compute_sha256 fs)) := by
      rw [hsumkeys]
      exact collectFileHashes_fresh s.cache.files (compute_sha256 fs) fl hfiles
    have hhit := sd_hit llm enc dp sums s (fl.map (compute_sha256 fs)) drec hcoll hdget hdh
    obtain ⟨dsums, hrun⟩ := ih (dset acc dp drec.summary) s
      (fun q hq => hfresh q (by simp [hq])) (fun q hq => hnodup q (by simp [hq]))
    refine ⟨dsums, ?_⟩
    simp only [processDirs, StateT.run, bind, StateT.bind]
    rw [show processFiles llm enc pyAst fs u [] fl s = .ok (sums, s) from hpf]
    simp only [Except.bind]
    rw [show summarize_directory llm enc dp sums s = .ok (drec.summary, s) from hhit]
    simp only [Except.bind]
    exact hrun

end AutoDoc

namespace AutoDoc

theorem build_post (llm : LLMFun) (enc : Encoding) (pyAst : String → Option PyMod)
    (fs : String → String) (dirs : List (String × List String)) (u : Bool)
    (s : St) (sum1 : String) (s1 : St)
    (h : (build_documentation llm enc pyAst fs dirs u).run s = .ok (sum1, s1))
    (hkeys : (dirs.map (fun e => e.1)).Nodup)
    (hflat : (dirs.flatMap (fun e => e.2)).Nodup) :
    (∀ e ∈ dirs, dirEntryFresh fs s1.cache e) ∧
    s1.cache.codebase = some ⟨codebaseHash fs dirs, sum1⟩ ∧
    (∀ q, q ∉ dirs.map (fun e => e.1) →
      dget s1.cache.directories q = dget s.cache.directories q) ∧
    (∀ q, q ∉ dirs.flatMap (fun e => e.2) →
      dget s1.cache.files q = dget s.cache.files q) := by
  unfold build_documentation at h
  simp only [StateT.run, bind, StateT.bind] at h
  cases hpd : processDirs llm enc pyAst fs u [] dirs s with
  | error er => rw [hpd] at h; cases h
  | ok v =>
    rw [hpd] at h
    obtain ⟨dsums, s2⟩ := v
    simp only [Except.bind] at h
    obtain ⟨hcb2, hdirs2, hfiles2, hfresh2⟩ :=
      processDirs_post llm enc pyAst fs u dirs [] s dsums s2 hpd hkeys hflat
    have hdkeys : dsums.map (fun p => p.1) = dirs.map (fun e => e.1) :=
      processDirs_keys llm enc pyAst fs u dirs [] s dsums s2 hpd (fun dp _ => rfl) hkeys
    obtain ⟨hashes, hcoll, hf3, hd3, hc3⟩ := cb_post llm enc dsums s2 sum1 s1 h
    have hcoll2 : collectDirHashes s2.cache.directories (dsums.map (fun p => p.1)) =
        .ok (dirs.map (fun e => dirHash fs e.2)) := by
      rw [hdkeys]
      exact collectDirHashes_dirs fs s2.cache.directories dirs
        (fun e he => (hfresh2 e he).2)
    have hashes_eq : hashes = dirs.map (fun e => dirHash fs e.2) := by
      rw [hcoll] at hcoll2
      cases hcoll2
      rfl
    subst hashes_eq
    refine ⟨?_, ?_, ?_, ?_⟩
    · intro e he
      obtain ⟨hfl, drec, hdget, hdh⟩ := hfresh2 e he
      exact ⟨fun fp hfp => by rw [hf3]; exact hfl fp hfp, drec, by rw [hd3]; exact hdget, hdh⟩
    · exact hc3
    · intro q hq
      rw [hd3]
      exact hdirs2 q hq
    · intro q hq
      rw [hf3]
      exact hfiles2 q hq

set_option maxHeartbeats 2000000 in
theorem build_fresh_run (llm : LLMFun) (enc : Encoding) (pyAst : String → Option PyMod)
    (fs : String → String) (dirs : List (String × List String)) (u : Bool) (s : St)
    (crec : CodeRec)
    (hfresh : ∀ e ∈ dirs, dirEntryFresh fs s.cache e)
    (hcb : s.cache.codebase = some crec)
    (hch : crec.hash = codebaseHash fs dirs)
    (hne : crec.hash ≠ "")
    (hnodupfl : ∀ e ∈ dirs, e.2.Nodup)
    (hkeys : (dirs.map (fun e => e.1)).Nodup) :
    (build_documentation llm enc pyAst fs dirs u).run s = .ok (crec.summary, s) := by
  obtain ⟨dsums, hpd⟩ := processDirs_fresh_run llm enc pyAst fs u dirs [] s hfresh hnodupfl
  have hdkeys : dsums.map (fun p => p.1) = dirs.map (fun e => e.1) :=
    processDirs_keys llm enc pyAst fs u dirs [] s dsums s hpd (fun dp _ => rfl) hkeys
  have hcoll : collectDirHashes s.cache.directories (dsums.map (fun p => p.1)) =
      .ok (dirs.map (fun e => dirHash fs e.2)) := by
    rw [hdkeys]
    exact collectDirHashes_dirs fs s.cache.directories dirs (fun e he => (hfresh e he).2)
  unfold codebaseHash at hch
  have hhit := cb_hit llm enc dsums s _ crec hcoll hcb hne hch
  unfold build_documentation
  simp only [StateT.run, bind, StateT.bind]
  rw [show processDirs llm enc pyAst fs u [] dirs s = .ok (dsums, s) from hpd]
  simp only [Except.bind]
  exact hhit

end AutoDoc

namespace AutoDoc

theorem combine_hashes_ne_empty (l : List String) : combine_hashes l ≠ "" :=
  sha256hex_ne_empty _

theorem nodup_of_flatMap (f : (String × List String) → List String) :
    ∀ dirs : List (String × List String), (dirs.flatMap f).Nodup →
      ∀ e ∈ dirs, (f e).Nodup := by
  intro dirs
  induction dirs with
  | nil => intro _ e he; cases he
  | cons e0 rest ih =>
    intro h e he
    simp only [List.flatMap_cons, List.nodup_append] at h
    cases he with
    | head => exact h.1
    | tail _ hmem => exact ih h.2.1 e hmem

theorem p_notin_other (dirs : List (String × List String))
    (hflat : (dirs.flatMap (fun e => e.2)).Nodup)
    (D : String) (flD : List String) (hD : (D, flD) ∈ dirs) (p : String) (hp : p ∈ flD) :
    ∀ e ∈ dirs, e ≠ (D, flD) → p ∉ e.2 := by
  induction dirs with
  | nil => cases hD
  | cons e0 rest ih =>
    simp only [List.flatMap_cons, List.nodup_append] at hflat
    intro e he hne
    cases hD with
    | head =>
      cases he with
      | head => exact absurd rfl hne
      | tail _ hmem =>
        intro hpe
        exact hflat.2.2 hp (List.mem_flatMap.mpr ⟨e, hmem, hpe⟩)
    | tail _ hDrest =>
      cases he with
      | head =>
        intro hpe
        exact hflat.2.2 hpe (List.mem_flatMap.mpr ⟨(D, flD), hDrest, hp⟩)
      | tail _ hmem => exact ih hflat.2.1 hDrest e hmem hne

theorem processFiles_mixed (llm : LLMFun) (enc : Encoding) (pyAst : String → Option PyMod)
    (fs : String → String) (u : Bool) (p : String) :
    ∀ (files : List String) (acc : List (String × String)) (s : St)
      (sums : List (String × String)) (s' : St),
      (processFiles llm enc pyAst fs u acc files).run s = .ok (sums, s') →
      (∀ fp ∈ files, fp ≠ p → ∃ rec, dget s.cache.files fp = some rec ∧
        rec.hash = compute_sha256 fs fp) →
      (∀ q, q ≠ p → dget s'.cache.files q = dget s.cache.files q) := by
  intro files
  induction files with
  | nil =>
    intro acc s sums s' h _
    simp only [processFiles, StateT.run, pure, StateT.pure, Except.pure] at h
    cases h
    intro q _
    rfl
  | cons f rest ih =>
    intro acc s sums s' h hfresh
    simp only [processFiles, StateT.run, bind, StateT.bind] at h
    cases hg : get_file_summary llm enc pyAst fs f u s with
    | error e => rw [hg] at h; cases h
    | ok v =>
      rw [hg] at h
      obtain ⟨sum1, s1⟩ := v
      simp only [Except.bind] at h
      obtain ⟨hfr, hpres, hdir, hcb⟩ := gfs_post llm enc pyAst fs f u s sum1 s1 hg
      have hstep : ∀ q, q ≠ p → dget s1.cache.files q = dget s.cache.files q := by
        intro q hq
        by_cases hqf : q = f
        · have hfp : f ≠ p := by rw [← hqf]; exact hq
          obtain ⟨rec, hget, hh⟩ := hfresh f (by simp) hfp
          have hhit : get_file_summary llm enc pyAst fs f u s = .ok (rec.summary, s) :=
            gfs_hit llm enc pyAst fs f u s rec hget hh
          rw [hhit] at hg
          cases hg
          rfl
        · exact hpres q hqf
      have hfresh2 : ∀ fp ∈ rest, fp ≠ p → ∃ rec, dget s1.cache.files fp = some rec ∧
          rec.hash = compute_sha256 fs fp := by
        intro fp hfp hfpne
        obtain ⟨rec, hget, hh⟩ := hfresh fp (by simp [hfp]) hfpne
        exact ⟨rec, (hstep fp hfpne).trans hget, hh⟩
      intro q hq
      rw [ih (dset acc f sum1) s1 sums s' h hfresh2 q hq, hstep q hq]

end AutoDoc

namespace AutoDoc

theorem processDirs_mixed (llm : LLMFun) (enc : Encoding) (pyAst : String → Option PyMod)
    (fs : String → String) (u : Bool) (p : String) :
    ∀ (dirs : List (String × List String)) (acc : List (String × String)) (s : St)
      (dsums : List (String × String)) (s' : St),
      (processDirs llm enc pyAst fs u acc dirs).run s = .ok (dsums, s') →
      (dirs.map (fun e => e.1)).Nodup →
      (dirs.flatMap (fun e => e.2)).Nodup →
      (∀ e ∈ dirs, ∀ fp ∈ e.2, fp ≠ p → ∃ rec, dget s.cache.files fp = some rec ∧
        rec.hash = compute_sha256 fs fp) →
      (∀ e ∈ dirs, p ∉ e.2 → ∃ drec, dget s.cache.directories e.1 = some drec ∧
        drec.dir_hash = dirHash fs e.2) →
      (∀ q, q ≠ p → dget s'.cache.files q = dget s.cache.files q) ∧
      (∀ e ∈ dirs, p ∉ e.2 → dget s'.cache.directories e.1 = dget s.cache.directories e.1) ∧
      (∀ q, q ∉ dirs.map (fun e => e.1) →
        dget s'.cache.directories q = dget s.cache.directories q) ∧
      s'.cache.codebase = s.cache.codebase := by
  intro dirs
  induction dirs with
  | nil =>
    intro acc s dsums s' h _ _ _ _
    simp only [processDirs, StateT.run, pure, StateT.pure, Except.pure] at h
    cases h
    exact ⟨fun q _ => rfl, by simp, fun q _ => rfl, rfl⟩
  | cons e rest ih =>
    obtain ⟨dp, fl⟩ := e
    intro acc s dsums s' h hkeys hflat hffresh hdfresh
    simp only [processDirs, StateT.run, bind, StateT.bind] at h
    cases hpf : processFiles llm enc pyAst fs u [] fl s with
    | error er => rw [hpf] at h; cases h
    | ok v =>
      rw [hpf] at h
      obtain ⟨sums, s1⟩ := v
      simp only [Except.bind] at h
      cases hsd : summarize_directory llm enc dp sums s1 with
      | error er => rw [hsd] at h; cases h
      | ok w =>
        rw [hsd] at h
        obtain ⟨dsum, s2⟩ := w
        simp only [Except.bind] at h
        simp only [List.map_cons, List.nodup_cons] at hkeys
        simp only [List.flatMap_cons, List.nodup_append] at hflat
        obtain ⟨hdir1, hcb1, _, _⟩ := processFiles_post llm enc pyAst fs u fl [] s sums s1 hpf
        have hfstep : ∀ q, q ≠ p → dget s1.cache.files q = dget s.cache.files q :=
          processFiles_mixed llm enc pyAst fs u p fl [] s sums s1 hpf
            (fun fp hfp => hffresh (dp, fl) (by simp) fp hfp)
        obtain ⟨hashes, _, hf2, hc2, _, hpres2⟩ := sd_post llm enc dp sums s1 dsum s2 hsd
        -- when p is not among this directory's files, the whole head step is a no-op
        have hhead : p ∉ fl → s2 = s ∧ dget s2.cache.directories dp = dget s.cache.directories dp := by
          intro hpfl
          have hfl_fresh : ∀ fp ∈ fl, ∃ rec, dget s.cache.files fp = some rec ∧
              rec.hash = compute_sha256 fs fp := by
            intro fp hfp
            exact hffresh (dp, fl) (by simp) fp hfp (fun he => hpfl (he ▸ hfp))
          obtain ⟨sums', hpf'⟩ := processFiles_fresh_run llm enc pyAst fs u fl [] s hfl_fresh
          have hpf'2 : processFiles llm enc pyAst fs u [] fl s = .ok (sums', s) := hpf'
          rw [hpf'2] at hpf
          cases hpf
          obtain ⟨drec, hdget, hdh⟩ := hdfresh (dp, fl) (by simp) hpfl
          have hsumkeys : sums.map (fun q => q.1) = fl :=
            processFiles_keys llm enc pyAst fs u fl [] s sums s hpf'2
              (fun fp _ => rfl) hflat.1
          have hcoll : collectFileHashes s.cache.files (sums.map (fun q => q.1)) =
              .ok (fl.map (compute_sha256 fs)) := by
            rw [hsumkeys]
            exact collectFileHashes_fresh s.cache.files (compute_sha256 fs) fl hfl_fresh
          have hhit : summarize_directory llm enc dp sums s = .ok (drec.summary, s) :=
            sd_hit llm enc dp sums s (fl.map (compute_sha256 fs)) drec hcoll hdget hdh
          rw [hhit] at hsd
          cases hsd
          exact ⟨rfl, rfl⟩
        -- hypotheses for the tail
        have hffresh2 : ∀ e ∈ rest, ∀ fp ∈ e.2, fp ≠ p →
            ∃ rec, dget s2.cache.files fp = some rec ∧ rec.hash = compute_sha256 fs fp := by
          intro e he fp hfp hfpne
          obtain ⟨rec, hget, hh⟩ := hffresh e (by simp [he]) fp hfp hfpne
          refine ⟨rec, ?_, hh⟩
          rw [show s2.cache.files = s1.cache.files from hf2, hfstep fp hfpne]
          exact hget
        have hdfresh2 : ∀ e ∈ rest, p ∉ e.2 →
            ∃ drec, dget s2.cache.directories e.1 = some drec ∧
              drec.dir_hash = dirHash fs e.2 := by
          intro e he hpe
          obtain ⟨drec, hget, hh⟩ := hdfresh e (by simp [he]) hpe
          refine ⟨drec, ?_, hh⟩
          have hne : e.1 ≠ dp := by
            intro heq
            exact hkeys.1 (heq ▸ List.mem_map.mpr ⟨e, he, rfl⟩)
          rw [hpres2 e.1 hne, hdir1]
          exact hget
        obtain ⟨hfiles3, hdirs3, hdirs3', hcb3⟩ :=
          ih (dset acc dp dsum) s2 dsums s' h hkeys.2 hflat.2.1 hffresh2 hdfresh2
        refine ⟨?_, ?_, ?_, ?_⟩
        · intro q hq
          rw [hfiles3 q hq, show s2.cache.files = s1.cache.files from hf2, hfstep q hq]
        · intro e he hpe
          cases he with
          | head =>
            have hdpn : dp ∉ rest.map (fun e => e.1) := hkeys.1
            rw [hdirs3' dp hdpn]
            exact (hhead hpe).2
          | tail _ hmem =>
            have hne : e.1 ≠ dp := by
              intro heq
              exact hkeys.1 (heq ▸ List.mem_map.mpr ⟨e, hmem, rfl⟩)
            rw [hdirs3 e hmem hpe, hpres2 e.1 hne, hdir1]
        · intro q hq
          simp only [List.map_cons, List.mem_cons] at hq
          push_neg at hq
          rw [hdirs3' q hq.2, hpres2 q hq.1, hdir1]
        · rw [hcb3, hc2, hcb1]

end AutoDoc

/-! ## Witness fixtures: a concrete toy instantiation of the external
collaborators (token codec, chat backend, parser, filesystem, walker). -/

/-- Toy token codec: one token per character; satisfies the tiktoken laws
(decoding inverts encoding, decoding is concatenative). -/
def encW : AutoDoc.Encoding :=
  ⟨fun s => s.data.map Char.toNat, fun ts => String.mk (ts.map Char.ofNat)⟩

/-- A chat backend that always succeeds. -/
def llmW : AutoDoc.LLMFun := fun p => .ok ("S" ++ toString p.length)

/-- A chat backend that always raises. -/
def llmFailW : AutoDoc.LLMFun := fun _ => .error (AutoDoc.Err.llmFail "boom")

/-- An `ast.parse` that always raises `SyntaxError`. -/
def astNoneW : String → Option AutoDoc.PyMod := fun _ => none

/-- A three-file filesystem. -/
def fsW : String → String := fun p =>
  if p = "d1/a.py" then "print(1)"
  else if p = "d1/b.py" then "x=2"
  else if p = "d2/c.py" then "y=3"
  else ""

/-- The same filesystem with exactly one file edited. -/
def fsW2 : String → String := fun p => if p = "d1/b.py" then "x=99" else fsW p

/-- The walker output: two directories with their immediate files. -/
def dirsW : List (String × List String) := [("d1", ["d1/a.py", "d1/b.py"]), ("d2", ["d2/c.py"])]

/-- First documentation run over the toy project, from no cache file. -/
def run1W : AutoDoc.RunResult := AutoDoc.runBuild llmW encW astNoneW fsW dirsW true none

/-- The cache the first run persists. -/
def cache1W : AutoDoc.Cache :=
  match run1W.result with
  | .ok (_, c, _) => c
  | .error _ => AutoDoc.emptyCache

/-- The codebase summary the first run returns. -/
def sum1W : String :=
  match run1W.result with
  | .ok (r, _, _) => r
  | .error _ => ""

/-- The prompt log of the first run. -/
def log1W : List String :=
  match run1W.result with
  | .ok (_, _, l) => l
  | .error _ => []

/-! ## C2 -/

/-- C2 (counterexample): `combine_hashes` does not sort internally — on two
concrete digest strings given in the two orders it produces different
results, so `combine_hashes([a, b]) == combine_hashes([b, a])` fails. -/
theorem combine_hashes_not_order_invariant :
    ¬ (AutoDoc.combine_hashes [sha256hex (utf8 "0"), sha256hex (utf8 "1")] =
       AutoDoc.combine_hashes [sha256hex (utf8 "1"), sha256hex (utf8 "0")]) := by
  decide

/-- C2 (amended): the combine operation itself concatenates its inputs in
the order given and is therefore order-sensitive; order-independence holds
for the call-site composition `combine_hashes(sorted(·))`: applying it to
any permutation of a digest list gives the same result. -/
theorem combine_hashes_sorted_perm_invariant (l1 l2 : List String) (h : l1.Perm l2) :
    AutoDoc.combine_hashes (pySorted l1) = AutoDoc.combine_hashes (pySorted l2) := by
  rw [pySorted_congr_perm h]

/-- Witness for C2's amended theorem at a concrete permutation pair. -/
theorem combine_hashes_sorted_perm_invariant_witness :
    (["b", "a", "c"] : List String).Perm ["c", "a", "b"] ∧
    AutoDoc.combine_hashes (pySorted ["b", "a", "c"]) =
      AutoDoc.combine_hashes (pySorted ["c", "a", "b"]) :=
  ⟨by decide, combine_hashes_sorted_perm_invariant ["b", "a", "c"] ["c", "a", "b"] (by decide)⟩

/-! ## C3 -/

/-- C3 (counterexample): with the cache file present but unparsable,
`load_cache` does not return the empty three-map skeleton — the
`json.JSONDecodeError` raised by `json.load` propagates out uncaught. -/
theorem load_cache_corrupt_raises :
    AutoDoc.load_cache (some (Except.error "Expecting value: line 1 column 1 (char 0)")) ≠
      Except.ok AutoDoc.skeletonJson ∧
    AutoDoc.load_cache (some (Except.error "Expecting value: line 1 column 1 (char 0)")) =
      Except.error "Expecting value: line 1 column 1 (char 0)" :=
  ⟨fun h => Except.noConfusion h, rfl⟩

/-- C3 (amended): `load_cache` returns the empty three-map skeleton when no
cache file exists, and returns the parsed value when the file parses; but
when the file is present and unparsable the parse exception propagates —
corruption is a fatal load error, not a degradation to the empty cache. -/
theorem load_cache_behavior :
    AutoDoc.load_cache none = Except.ok AutoDoc.skeletonJson ∧
    (∀ j : AutoDoc.Json, AutoDoc.load_cache (some (Except.ok j)) = Except.ok j) ∧
    (∀ e : String, AutoDoc.load_cache (some (Except.error e)) = Except.error e) :=
  ⟨rfl, fun _ => rfl, fun _ => rfl⟩

/-! ## C10 -/

namespace AutoDoc2

theorem llmPrompt_ok_none (chat : ChatFun) (p : String) (r : Option String)
    (h : llmPrompt chat p = .ok r) : r = none := by
  unfold llmPrompt at h
  cases hc : chat p with
  | ok v => rw [hc] at h; cases h; rfl
  | error e => rw [hc] at h; cases h

theorem summarize_large_text_ok_none (chat : ChatFun) (enc : AutoDoc.Encoding)
    (text label : String) (r : Option String)
    (h : summarize_large_text chat enc text label = .ok r) : r = none := by
  unfold summarize_large_text at h
  by_cases hc : AutoDoc.count_tokens enc text ≤ CHUNK_SIZE
  · rw [if_pos hc] at h
    exact llmPrompt_ok_none chat _ r h
  · rw [if_neg hc] at h
    cases hm : mapChunks chat label 0 (AutoDoc.chunk_text enc text CHUNK_SIZE) with
    | error e => rw [hm] at h; cases h
    | ok ps =>
      rw [hm] at h
      dsimp only [] at h
      cases hj : pyJoin "\n\n" ps with
      | error e => rw [hj] at h; cases h
      | ok j =>
        rw [hj] at h
        exact llmPrompt_ok_none chat _ r h

theorem summarize_file_ast_ok_none (chat : ChatFun) (info : AutoDoc.FileInfo)
    (r : Option String) (h : summarize_file_ast chat info = .ok r) : r = none :=
  llmPrompt_ok_none chat _ r h

end AutoDoc2

/-- C10: in the variant engine of auto_document2.py, `LLM.prompt` calls
`chat` without returning its result, so every successful prompt call
returns `None`; consequently, whenever the variant `get_file_summary`
regenerates (no cache hit), the summary it returns and the summary it
stores in the file record are both `None`. -/
theorem variant_prompt_returns_none
    (chat : AutoDoc2.ChatFun) (enc : AutoDoc.Encoding) (pyAst : String → Option AutoDoc.PyMod)
    (fs : String → String) (filepath : String) (files : List (String × AutoDoc2.FileRec))
    (u : Bool) (summary : Option String) (files' : List (String × AutoDoc2.FileRec))
    (hmiss : ∀ entry, dget files filepath = some entry →
      entry.hash ≠ AutoDoc.compute_sha256 fs filepath)
    (hrun : AutoDoc2.get_file_summary chat enc pyAst fs filepath files u =
      .ok (summary, files')) :
    (∀ p r, AutoDoc2.llmPrompt chat p = .ok r → r = none) ∧
    summary = none ∧
    dget files' filepath = some ⟨AutoDoc.compute_sha256 fs filepath, none⟩ := by
  refine ⟨fun p r h => AutoDoc2.llmPrompt_ok_none chat p r h, ?_⟩
  unfold AutoDoc2.get_file_summary at hrun
  dsimp only [] at hrun
  have hregen : ∀ src : Except AutoDoc.Err (Option String),
      (∀ r, src = .ok r → r = none) →
      (match src with
        | .ok s0 => Except.ok (s0, dset files filepath
            ⟨AutoDoc.compute_sha256 fs filepath, s0⟩)
        | .error e => Except.error e) = .ok (summary, files') →
      summary = none ∧
      dget files' filepath = some ⟨AutoDoc.compute_sha256 fs filepath, none⟩ := by
    intro src hnone heq
    cases hsrc : src with
    | error e => rw [hsrc] at heq; cases heq
    | ok s0 =>
      have h0 : s0 = none := hnone s0 hsrc
      subst h0
      rw [hsrc] at heq
      dsimp only [] at heq
      cases heq
      exact ⟨rfl, dget_dset_self _ _ _⟩
  have hbranch : ∀ r, (if u then
        match AutoDoc.ast_parse_file pyAst fs filepath with
        | AutoDoc.ParseOut.parseError _ _ =>
          AutoDoc2.summarize_large_text chat enc (fs filepath) "file"
        | AutoDoc.ParseOut.parsed info =>
          if info.source = "" then AutoDoc2.summarize_large_text chat enc (fs filepath) "file"
          else AutoDoc2.summarize_file_ast chat info
      else AutoDoc2.summarize_large_text chat enc (fs filepath) "file") = .ok r →
      r = none := by
    intro r h
    by_cases hu : u
    · rw [if_pos hu] at h
      cases hp : AutoDoc.ast_parse_file pyAst fs filepath with
      | parseError e src =>
        rw [hp] at h
        dsimp only [] at h
        exact AutoDoc2.summarize_large_text_ok_none chat enc _ _ r h
      | parsed info =>
        rw [hp] at h
        dsimp only [] at h
        by_cases hsrc : info.source = ""
        · rw [if_pos hsrc] at h
          exact AutoDoc2.summarize_large_text_ok_none chat enc _ _ r h
        · rw [if_neg hsrc] at h
          exact AutoDoc2.summarize_file_ast_ok_none chat info r h
    · rw [if_neg hu] at h
      exact AutoDoc2.summarize_large_text_ok_none chat enc _ _ r h
  cases hg : dget files filepath with
  | some entry =>
    rw [hg] at hrun
    dsimp only [] at hrun
    rw [if_neg (hmiss entry hg)] at hrun
    exact hregen _ hbranch hrun
  | none =>
    rw [hg] at hrun
    dsimp only [] at hrun
    exact hregen _ hbranch hrun

/-- A chat backend for the variant witness. -/
def chatW : AutoDoc2.ChatFun := fun _ => .ok "reply"

/-- Witness for C10: the variant engine, run on a concrete miss, returns
`None` and stores `None` in the file record. -/
theorem variant_prompt_returns_none_witness :
    (∀ entry, dget ([] : List (String × AutoDoc2.FileRec)) "f.py" = some entry →
      entry.hash ≠ AutoDoc.compute_sha256 fsW "f.py") ∧
    AutoDoc2.get_file_summary chatW encW astNoneW fsW "f.py" [] true =
      .ok (none, dset [] "f.py" ⟨AutoDoc.compute_sha256 fsW "f.py", none⟩) ∧
    ((∀ p r, AutoDoc2.llmPrompt chatW p = .ok r → r = none) ∧
      (none : Option String) = none ∧
      dget (dset ([] : List (String × AutoDoc2.FileRec)) "f.py"
          ⟨AutoDoc.compute_sha256 fsW "f.py", none⟩) "f.py" =
        some ⟨AutoDoc.compute_sha256 fsW "f.py", none⟩) :=
  ⟨fun entry h => Option.noConfusion h,
   rfl,
   variant_prompt_returns_none chatW encW astNoneW fsW "f.py" [] true none _
     (fun entry h => Option.noConfusion h) rfl⟩

/-! ## C8 -/

/-- When `ast.parse` raises on the file's source, the chosen summary source
is full-text summarization of the file's content. -/
theorem file_summary_source_parse_fail (llm : AutoDoc.LLMFun) (enc : AutoDoc.Encoding)
    (pyAst : String → Option AutoDoc.PyMod) (fs : String → String) (filepath : String)
    (hparse : pyAst (fs filepath) = none) :
    AutoDoc.file_summary_source llm enc pyAst fs filepath true =
      AutoDoc.summarize_large_text llm enc (fs filepath) "file content" := by
  unfold AutoDoc.file_summary_source AutoDoc.ast_parse_file
  rw [if_pos rfl]
  dsimp only []
  rw [hparse]

/-- C8: when the file's source does not parse (`ast_parse_file` produces
the dict with the "error" key), `get_file_summary` with `use_ast` does not
abort: on a cache miss it behaves exactly as raw-text summarization of the
file's full content via `summarize_large_text` followed by the cache
write — the parse failure itself is consumed and never surfaces. -/
theorem parse_failure_falls_back_to_raw_text (llm : AutoDoc.LLMFun) (enc : AutoDoc.Encoding)
    (pyAst : String → Option AutoDoc.PyMod) (fs : String → String) (filepath : String)
    (s : AutoDoc.St)
    (hparse : pyAst (fs filepath) = none)
    (hmiss : ∀ entry, dget s.cache.files filepath = some entry →
      entry.hash ≠ AutoDoc.compute_sha256 fs filepath) :
    (AutoDoc.get_file_summary llm enc pyAst fs filepath true).run s =
      ((do
        let summary ← AutoDoc.summarize_large_text llm enc (fs filepath) "file content"
        modify (fun st => ⟨⟨dset st.cache.files filepath
            ⟨AutoDoc.compute_sha256 fs filepath, summary⟩,
          st.cache.directories, st.cache.codebase⟩, st.log⟩)
        pure summary : AutoDoc.DocM String).run s) := by
  have hregen : AutoDoc.regen_file llm enc pyAst fs filepath true
      (AutoDoc.compute_sha256 fs filepath) =
      (do
        let summary ← AutoDoc.summarize_large_text llm enc (fs filepath) "file content"
        modify (fun st => ⟨⟨dset st.cache.files filepath
            ⟨AutoDoc.compute_sha256 fs filepath, summary⟩,
          st.cache.directories, st.cache.codebase⟩, st.log⟩)
        pure summary : AutoDoc.DocM String) := by
    unfold AutoDoc.regen_file
    rw [file_summary_source_parse_fail llm enc pyAst fs filepath hparse]
  unfold AutoDoc.get_file_summary
  simp only [StateT.run, bind, StateT.bind, get, getThe, MonadStateOf.get, StateT.get,
    Except.bind, pure, Except.pure]
  cases hg : dget s.cache.files filepath with
  | some entry =>
    dsimp only []
    rw [if_neg (hmiss entry hg), hregen]
    rfl
  | none =>
    dsimp only []
    rw [hregen]
    rfl

/-- Witness for C8 on a concrete non-parsing file and empty cache. -/
theorem parse_failure_falls_back_to_raw_text_witness :
    astNoneW (fsW "d1/a.py") = none ∧
    (∀ entry, dget (AutoDoc.St.mk AutoDoc.emptyCache []).cache.files "d1/a.py" = some entry →
      entry.hash ≠ AutoDoc.compute_sha256 fsW "d1/a.py") ∧
    (AutoDoc.get_file_summary llmW encW astNoneW fsW "d1/a.py" true).run
        ⟨AutoDoc.emptyCache, []⟩ =
      ((do
        let summary ← AutoDoc.summarize_large_text llmW encW (fsW "d1/a.py") "file content"
        modify (fun st => ⟨⟨dset st.cache.files "d1/a.py"
            ⟨AutoDoc.compute_sha256 fsW "d1/a.py", summary⟩,
          st.cache.directories, st.cache.codebase⟩, st.log⟩)
        pure summary : AutoDoc.DocM String).run ⟨AutoDoc.emptyCache, []⟩) :=
  ⟨rfl, fun entry h => Option.noConfusion h,
   parse_failure_falls_back_to_raw_text llmW encW astNoneW fsW "d1/a.py"
     ⟨AutoDoc.emptyCache, []⟩ rfl (fun entry h => Option.noConfusion h)⟩

/-! ## C9 -/

/-- Effect of one run on the persisted cache file: each `save_cache` call
overwrites its contents; no call leaves it as it was. -/
def fileAfter (fileBefore : Option AutoDoc.Cache) (r : AutoDoc.RunResult) :
    Option AutoDoc.Cache :=
  r.saves.foldl (fun _ c => some c) fileBefore

/-- C9: `build_documentation` persists via a single `save_cache` call after
all three scopes complete: a successful run saves exactly once — the final
in-memory cache — while a run in which any Summarizer call raises saves
nothing, and the persisted cache file keeps its pre-run contents (all
in-memory progress on other entities is discarded). -/
theorem save_cache_once_after_success_only
    (llm : AutoDoc.LLMFun) (enc : AutoDoc.Encoding) (pyAst : String → Option AutoDoc.PyMod)
    (fs : String → String) (dirs : List (String × List String)) (u : Bool)
    (fileBefore : Option AutoDoc.Cache) :
    (∀ sum st1, (AutoDoc.build_documentation llm enc pyAst fs dirs u).run
        ⟨fileBefore.getD AutoDoc.emptyCache, []⟩ = .ok (sum, st1) →
      (AutoDoc.runBuild llm enc pyAst fs dirs u fileBefore).saves = [st1.cache] ∧
      fileAfter fileBefore (AutoDoc.runBuild llm enc pyAst fs dirs u fileBefore) =
        some st1.cache) ∧
    (∀ e, (AutoDoc.build_documentation llm enc pyAst fs dirs u).run
        ⟨fileBefore.getD AutoDoc.emptyCache, []⟩ = .error e →
      (AutoDoc.runBuild llm enc pyAst fs dirs u fileBefore).result = .error e ∧
      (AutoDoc.runBuild llm enc pyAst fs dirs u fileBefore).saves = [] ∧
      fileAfter fileBefore (AutoDoc.runBuild llm enc pyAst fs dirs u fileBefore) =
        fileBefore) := by
  constructor
  · intro sum st1 h
    unfold AutoDoc.runBuild
    rw [h]
    exact ⟨rfl, rfl⟩
  · intro e h
    unfold AutoDoc.runBuild
    rw [h]
    exact ⟨rfl, rfl, rfl⟩

/-- The successful toy build at the `build_documentation` level. -/
def bRun1W : Except AutoDoc.Err (String × AutoDoc.St) :=
  (AutoDoc.build_documentation llmW encW astNoneW fsW dirsW true).run ⟨AutoDoc.emptyCache, []⟩

/-- Its final state. -/
def bSt1W : AutoDoc.St :=
  match bRun1W with
  | .ok (_, st) => st
  | .error _ => ⟨AutoDoc.emptyCache, []⟩

/-- Its final summary. -/
def bSum1W : String :=
  match bRun1W with
  | .ok (r, _) => r
  | .error _ => ""

/-- Witness for C9: one concrete successful run saves exactly once, and one
concrete failing run (chat backend raises) saves nothing and leaves the
absent cache file absent. -/
theorem save_cache_once_after_success_only_witness :
    ((AutoDoc.build_documentation llmW encW astNoneW fsW dirsW true).run
        ⟨(none : Option AutoDoc.Cache).getD AutoDoc.emptyCache, []⟩ = .ok (bSum1W, bSt1W)) ∧
    ((AutoDoc.runBuild llmW encW astNoneW fsW dirsW true none).saves = [bSt1W.cache] ∧
      fileAfter none (AutoDoc.runBuild llmW encW astNoneW fsW dirsW true none) =
        some bSt1W.cache) ∧
    ((AutoDoc.build_documentation llmFailW encW astNoneW fsW dirsW true).run
        ⟨(none : Option AutoDoc.Cache).getD AutoDoc.emptyCache, []⟩ =
          .error (AutoDoc.Err.llmFail "boom")) ∧
    ((AutoDoc.runBuild llmFailW encW astNoneW fsW dirsW true none).result =
        .error (AutoDoc.Err.llmFail "boom") ∧
      (AutoDoc.runBuild llmFailW encW astNoneW fsW dirsW true none).saves = [] ∧
      fileAfter none (AutoDoc.runBuild llmFailW encW astNoneW fsW dirsW true none) = none) :=
  ⟨rfl,
   (save_cache_once_after_success_only llmW encW astNoneW fsW dirsW true none).1
     bSum1W bSt1W rfl,
   rfl,
   (save_cache_once_after_success_only llmFailW encW astNoneW fsW dirsW true none).2
     (AutoDoc.Err.llmFail "boom") rfl⟩

/-! ## C1 -/

/-- C1: whenever a stored record's digest equals the freshly recomputed
one, the engine returns the stored summary verbatim and issues zero
`llm.prompt` calls for that entity, at all three scopes: `get_file_summary`
on a matching file hash, `summarize_directory` on a matching combined
directory hash, and the codebase phase on a matching codebase hash — in
each case the run state (cache and prompt log) is returned unchanged. -/
theorem cache_hit_reuses_summary_without_calls :
    (∀ (llm : AutoDoc.LLMFun) (enc : AutoDoc.Encoding) (pyAst : String → Option AutoDoc.PyMod)
        (fs : String → String) (filepath : String) (u : Bool) (s : AutoDoc.St)
        (entry : AutoDoc.FileRec),
      dget s.cache.files filepath = some entry →
      entry.hash = AutoDoc.compute_sha256 fs filepath →
      (AutoDoc.get_file_summary llm enc pyAst fs filepath u).run s =
        .ok (entry.summary, s)) ∧
    (∀ (llm : AutoDoc.LLMFun) (enc : AutoDoc.Encoding) (dir_path : String)
        (fsums : List (String × String)) (s : AutoDoc.St) (hashes : List String)
        (drec : AutoDoc.DirRec),
      AutoDoc.collectFileHashes s.cache.files (fsums.map (fun p => p.1)) = .ok hashes →
      dget s.cache.directories dir_path = some drec →
      drec.dir_hash = AutoDoc.combine_hashes (pySorted hashes) →
      (AutoDoc.summarize_directory llm enc dir_path fsums).run s =
        .ok (drec.summary, s)) ∧
    (∀ (llm : AutoDoc.LLMFun) (enc : AutoDoc.Encoding) (dsums : List (String × String))
        (s : AutoDoc.St) (hashes : List String) (crec : AutoDoc.CodeRec),
      AutoDoc.collectDirHashes s.cache.directories (dsums.map (fun p => p.1)) = .ok hashes →
      s.cache.codebase = some crec →
      crec.hash ≠ "" →
      crec.hash = AutoDoc.combine_hashes (pySorted hashes) →
      (AutoDoc.codebase_step llm enc dsums).run s = .ok (crec.summary, s)) :=
  ⟨AutoDoc.gfs_hit, AutoDoc.sd_hit, AutoDoc.cb_hit⟩

/-- The file record the first run stored for `d1/a.py`. -/
def entryW : AutoDoc.FileRec := (dget cache1W.files "d1/a.py").getD ⟨"", ""⟩

/-- The directory record the first run stored for `d1`. -/
def drecW : AutoDoc.DirRec := (dget cache1W.directories "d1").getD ⟨"", ""⟩

/-- The codebase record the first run stored. -/
def crecW : AutoDoc.CodeRec := cache1W.codebase.getD ⟨"", ""⟩

/-- A run state carrying the first run's cache and an empty prompt log. -/
def stW : AutoDoc.St := ⟨cache1W, []⟩

/-- File-summary dict for the directory-scope witness. -/
def fsumsW : List (String × String) := [("d1/a.py", "sa"), ("d1/b.py", "sb")]

/-- The fresh digests of `d1`'s files. -/
def hashesW : List String :=
  [AutoDoc.compute_sha256 fsW "d1/a.py", AutoDoc.compute_sha256 fsW "d1/b.py"]

/-- Directory-summary dict for the codebase-scope witness. -/
def dsumsW : List (String × String) := [("d1", "sd1"), ("d2", "sd2")]

/-- The fresh combined digests of the two directories. -/
def cbHashesW : List String :=
  [AutoDoc.dirHash fsW ["d1/a.py", "d1/b.py"], AutoDoc.dirHash fsW ["d2/c.py"]]

set_option maxHeartbeats 8000000 in
/-- Witness for C1 over the cache a concrete first run produced: all three
scopes hit and return the stored summaries with the state unchanged. -/
theorem cache_hit_reuses_summary_without_calls_witness :
    (dget stW.cache.files "d1/a.py" = some entryW ∧
     entryW.hash = AutoDoc.compute_sha256 fsW "d1/a.py" ∧
     (AutoDoc.get_file_summary llmW encW astNoneW fsW "d1/a.py" true).run stW =
       .ok (entryW.summary, stW)) ∧
    (AutoDoc.collectFileHashes stW.cache.files (fsumsW.map (fun p => p.1)) = .ok hashesW ∧
     dget stW.cache.directories "d1" = some drecW ∧
     drecW.dir_hash = AutoDoc.combine_hashes (pySorted hashesW) ∧
     (AutoDoc.summarize_directory llmW encW "d1" fsumsW).run stW =
       .ok (drecW.summary, stW)) ∧
    (AutoDoc.collectDirHashes stW.cache.directories (dsumsW.map (fun p => p.1)) =
       .ok cbHashesW ∧
     stW.cache.codebase = some crecW ∧
     crecW.hash ≠ "" ∧
     crecW.hash = AutoDoc.combine_hashes (pySorted cbHashesW) ∧
     (AutoDoc.codebase_step llmW encW dsumsW).run stW = .ok (crecW.summary, stW)) :=
  ⟨⟨rfl, rfl,
    cache_hit_reuses_summary_without_calls.1 llmW encW astNoneW fsW "d1/a.py" true stW entryW
      rfl rfl⟩,
   ⟨rfl, rfl, rfl,
    (cache_hit_reuses_summary_without_calls.2.1) llmW encW "d1" fsumsW stW hashesW drecW
      rfl rfl rfl⟩,
   ⟨rfl, rfl, by decide, rfl,
    (cache_hit_reuses_summary_without_calls.2.2) llmW encW dsumsW stW cbHashesW crecW
      rfl rfl (by decide) rfl⟩⟩

/-! ## C6 -/

namespace AutoDoc

/-- The map-phase prompts, in original chunk order, numbering from `idx`. -/
def mapPromptsFrom (label : String) : Nat → List String → List String
  | _, [] => []
  | idx, c :: cs => mapPrompt label idx c :: mapPromptsFrom label (idx + 1) cs

/-- The partial summaries a total backend `f` produces for the chunks, in
original chunk order, numbering from `idx`. -/
def partialsFrom (f : String → String) (label : String) : Nat → List String → List String
  | _, [] => []
  | idx, c :: cs => f (mapPrompt label idx c) :: partialsFrom f label (idx + 1) cs

theorem mapPromptsFrom_length (label : String) :
    ∀ (cs : List String) (idx : Nat), (mapPromptsFrom label idx cs).length = cs.length := by
  intro cs
  induction cs with
  | nil => intro idx; rfl
  | cons c cs ih => intro idx; simp [mapPromptsFrom, ih (idx + 1)]

theorem mapChunks_total_run (f : String → String) (label : String) :
    ∀ (cs : List String) (idx : Nat) (s : St),
      (mapChunks (fun p => .ok (f p)) label idx cs).run s =
        .ok (partialsFrom f label idx cs, ⟨s.cache, s.log ++ mapPromptsFrom label idx cs⟩) := by
  intro cs
  induction cs with
  | nil =>
    intro idx s
    simp only [partialsFrom, mapPromptsFrom, List.append_nil]
    rfl
  | cons c cs ih =>
    intro idx s
    simp only [mapChunks, StateT.run, bind, StateT.bind, promptLLM, Except.bind]
    rw [show mapChunks (fun p => Except.ok (f p)) label (idx + 1) cs
          ⟨s.cache, s.log ++ [mapPrompt label idx c]⟩ =
        .ok (partialsFrom f label (idx + 1) cs,
          ⟨s.cache, (s.log ++ [mapPrompt label idx c]) ++ mapPromptsFrom label (idx + 1) cs⟩)
      from ih (idx + 1) ⟨s.cache, s.log ++ [mapPrompt label idx c]⟩]
    show Except.ok _ = Except.ok _
    rw [List.append_assoc]
    rfl

end AutoDoc

/-- C6: `summarize_large_text` with a total backend: for text at or below
the chunk threshold it makes exactly one summarization call with no
chunking; for text above the threshold it splits via `chunk_text` in
original order, logs one map call per chunk (in order), and one final
reduction call whose input joins the partial summaries in original chunk
order — nothing else. -/
theorem summarize_large_text_map_reduce (f : String → String) (enc : AutoDoc.Encoding)
    (text label : String) (s : AutoDoc.St) :
    (AutoDoc.count_tokens enc text ≤ AutoDoc.CHUNK_SIZE →
      (AutoDoc.summarize_large_text (fun p => .ok (f p)) enc text label).run s =
        .ok (f (AutoDoc.smallPrompt label text),
          ⟨s.cache, s.log ++ [AutoDoc.smallPrompt label text]⟩)) ∧
    (AutoDoc.CHUNK_SIZE < AutoDoc.count_tokens enc text →
      (AutoDoc.summarize_large_text (fun p => .ok (f p)) enc text label).run s =
        .ok (f (AutoDoc.reducePrompt (String.intercalate "\n\n"
            (AutoDoc.partialsFrom f label 0 (AutoDoc.chunk_text enc text AutoDoc.CHUNK_SIZE)))),
          ⟨s.cache, s.log ++
            AutoDoc.mapPromptsFrom label 0 (AutoDoc.chunk_text enc text AutoDoc.CHUNK_SIZE) ++
            [AutoDoc.reducePrompt (String.intercalate "\n\n"
              (AutoDoc.partialsFrom f label 0
                (AutoDoc.chunk_text enc text AutoDoc.CHUNK_SIZE)))]⟩) ∧
      (AutoDoc.mapPromptsFrom label 0 (AutoDoc.chunk_text enc text AutoDoc.CHUNK_SIZE)).length =
        (AutoDoc.chunk_text enc text AutoDoc.CHUNK_SIZE).length) := by
  constructor
  · intro hle
    unfold AutoDoc.summarize_large_text
    rw [if_pos hle]
    rfl
  · intro hgt
    refine ⟨?_, AutoDoc.mapPromptsFrom_length label _ 0⟩
    unfold AutoDoc.summarize_large_text
    rw [if_neg (by omega)]
    simp only [StateT.run, bind, StateT.bind]
    rw [show AutoDoc.mapChunks (fun p => Except.ok (f p)) label 0
          (AutoDoc.chunk_text enc text AutoDoc.CHUNK_SIZE) s =
        .ok (AutoDoc.partialsFrom f label 0 (AutoDoc.chunk_text enc text AutoDoc.CHUNK_SIZE),
          ⟨s.cache, s.log ++ AutoDoc.mapPromptsFrom label 0
            (AutoDoc.chunk_text enc text AutoDoc.CHUNK_SIZE)⟩)
      from AutoDoc.mapChunks_total_run f label _ 0 s]
    simp only [Except.bind]
    rfl

/-- A short text and a 32001-character text for the C6 witness. -/
def bigTextW : String := String.mk (List.replicate 32001 'a')

/-- Witness for C6: the small text takes the single-call path; the
32001-token text takes the map-reduce path with one call per chunk plus
one reduction. -/
theorem summarize_large_text_map_reduce_witness :
    (AutoDoc.count_tokens encW "hi" ≤ AutoDoc.CHUNK_SIZE ∧
      (AutoDoc.summarize_large_text (fun p => .ok (String.length p |> toString)) encW
          "hi" "text").run ⟨AutoDoc.emptyCache, []⟩ =
        .ok (toString (AutoDoc.smallPrompt "text" "hi").length,
          ⟨AutoDoc.emptyCache, [] ++ [AutoDoc.smallPrompt "text" "hi"]⟩)) ∧
    (AutoDoc.CHUNK_SIZE < AutoDoc.count_tokens encW bigTextW ∧
      ((AutoDoc.summarize_large_text (fun p => .ok (String.length p |> toString)) encW
          bigTextW "text").run ⟨AutoDoc.emptyCache, []⟩ =
        .ok (toString (AutoDoc.reducePrompt (String.intercalate "\n\n"
            (AutoDoc.partialsFrom (fun p => toString p.length) "text" 0
              (AutoDoc.chunk_text encW bigTextW AutoDoc.CHUNK_SIZE)))).length,
          ⟨AutoDoc.emptyCache, [] ++
            AutoDoc.mapPromptsFrom "text" 0 (AutoDoc.chunk_text encW bigTextW AutoDoc.CHUNK_SIZE) ++
            [AutoDoc.reducePrompt (String.intercalate "\n\n"
              (AutoDoc.partialsFrom (fun p => toString p.length) "text" 0
                (AutoDoc.chunk_text encW bigTextW AutoDoc.CHUNK_SIZE)))]⟩) ∧
      (AutoDoc.mapPromptsFrom "text" 0
          (AutoDoc.chunk_text encW bigTextW AutoDoc.CHUNK_SIZE)).length =
        (AutoDoc.chunk_text encW bigTextW AutoDoc.CHUNK_SIZE).length)) := by
  have hbig : AutoDoc.CHUNK_SIZE < AutoDoc.count_tokens encW bigTextW := by
    have he : AutoDoc.count_tokens encW bigTextW =
        ((List.replicate 32001 'a').map Char.toNat).length := rfl
    rw [he, List.length_map, List.length_replicate]
    norm_num [AutoDoc.CHUNK_SIZE]
  have hsmall : AutoDoc.count_tokens encW "hi" ≤ AutoDoc.CHUNK_SIZE := by decide
  exact ⟨⟨hsmall,
      (summarize_large_text_map_reduce (fun p => toString p.length) encW "hi" "text"
        ⟨AutoDoc.emptyCache, []⟩).1 hsmall⟩,
    ⟨hbig,
      (summarize_large_text_map_reduce (fun p => toString p.length) encW bigTextW "text"
        ⟨AutoDoc.emptyCache, []⟩).2 hbig⟩⟩

/-! ## C7 -/

theorem chunksOfAux_mem_le (size : Nat) :
    ∀ (fuel : Nat) (l : List α) (c : List α), c ∈ chunksOfAux size fuel l →
      c.length ≤ size := by
  intro fuel
  induction fuel with
  | zero =>
    intro l c hc
    match l with
    | [] => cases hc
    | t :: ts => cases hc
  | succ n ih =>
    intro l c hc
    match l with
    | [] => cases hc
    | t :: ts =>
      cases hc with
      | head => rw [List.length_take]; omega
      | tail _ hmem => exact ih (ts.drop (size - 1)) c hmem

/-- No chunk holds more than `size` tokens. -/
theorem chunksOf_mem_le (size : Nat) (l : List α) (c : List α) (hc : c ∈ chunksOf size l) :
    c.length ≤ size :=
  chunksOfAux_mem_le size l.length l c hc

theorem chunksOfAux_flatten (size : Nat) (hpos : 0 < size) :
    ∀ (fuel : Nat) (l : List α), l.length ≤ fuel →
      (chunksOfAux size fuel l).flatten = l := by
  intro fuel
  induction fuel with
  | zero =>
    intro l hl
    match l with
    | [] => rfl
    | t :: ts => simp at hl
  | succ n ih =>
    intro l hl
    match l with
    | [] => rfl
    | t :: ts =>
      show ((t :: ts).take size ++ (chunksOfAux size n (ts.drop (size - 1))).flatten) = t :: ts
      rw [ih (ts.drop (size - 1)) (by simp at hl ⊢; omega)]
      obtain ⟨k, rfl⟩ : ∃ k, size = k + 1 := ⟨size - 1, by omega⟩
      rw [List.take_succ_cons]
      show t :: (ts.take k ++ ts.drop (k + 1 - 1)) = t :: ts
      simp [List.take_append_drop]

/-- Decoding and concatenating all chunks reproduces the token list. -/
theorem chunksOf_flatten (size : Nat) (hpos : 0 < size) (l : List α) :
    (chunksOf size l).flatten = l :=
  chunksOfAux_flatten size hpos l.length l (le_refl _)

/-- A nonempty token list at or under the limit forms exactly one chunk. -/
theorem chunksOf_single (size : Nat) (hpos : 0 < size) (l : List α) (hne : l ≠ [])
    (hle : l.length ≤ size) : chunksOf size l = [l] := by
  match l with
  | [] => exact absurd rfl hne
  | t :: ts =>
    rw [chunksOf_cons]
    rw [List.take_of_length_le hle, List.drop_eq_nil_of_le (by simp at hle ⊢; omega)]
    rfl

/-- Strings with equal character data are equal. -/
theorem str_ext {a b : String} (h : a.data = b.data) : a = b := by
  cases a
  cases b
  exact congrArg String.mk h

theorem strFoldl_append_data : ∀ (l : List String) (a : String),
    (l.foldl (fun r s => r ++ s) a).data = a.data ++ (l.map String.data).flatten := by
  intro l
  induction l with
  | nil => intro a; simp
  | cons c cs ih =>
    intro a
    show (cs.foldl (fun r s => r ++ s) (a ++ c)).data = _
    rw [ih (a ++ c), String.data_append]
    simp

theorem strJoin_data (l : List String) :
    (String.join l).data = (l.map String.data).flatten := by
  show (l.foldl (fun r s => r ++ s) "").data = _
  rw [strFoldl_append_data]
  rfl

theorem strJoin_cons (s : String) (l : List String) :
    String.join (s :: l) = s ++ String.join l := by
  apply str_ext
  rw [strJoin_data, String.data_append, strJoin_data]
  rfl

/-- A decoder that distributes over concatenation sends `[]` to `""`. -/
theorem decode_nil_of_hom (enc : AutoDoc.Encoding)
    (hhom : ∀ t u : List Nat, enc.decode (t ++ u) = enc.decode t ++ enc.decode u) :
    enc.decode [] = "" := by
  have h := hhom [] []
  rw [List.append_nil] at h
  have hd : (enc.decode []).data = (enc.decode []).data ++ (enc.decode []).data := by
    have h2 := congrArg String.data h
    rwa [String.data_append] at h2
  have hlen : (enc.decode []).data.length = 0 := by
    have h3 := congrArg List.length hd
    rw [List.length_append] at h3
    omega
  exact str_ext (List.eq_nil_of_length_eq_zero hlen)

theorem flatten_decode (enc : AutoDoc.Encoding)
    (hhom : ∀ t u : List Nat, enc.decode (t ++ u) = enc.decode t ++ enc.decode u) :
    ∀ ls : List (List Nat), String.join (ls.map enc.decode) = enc.decode ls.flatten := by
  intro ls
  induction ls with
  | nil =>
    show ("" : String) = enc.decode []
    rw [decode_nil_of_hom enc hhom]
  | cons c cs ih =>
    rw [List.map_cons, strJoin_cons, ih, List.flatten_cons, hhom]

/-- C7 (counterexample): under a legitimate token codec (decoding inverts
encoding and distributes over concatenation), `chunk_text` on the empty
text yields zero chunks — `range(0, 0, chunk_size)` is empty — not exactly
one chunk. -/
theorem chunk_text_empty_no_chunk :
    (∀ t u : List Nat, encW.decode (t ++ u) = encW.decode t ++ encW.decode u) ∧
    (∀ s : String, encW.decode (encW.encode s) = s) ∧
    AutoDoc.chunk_text encW "" 5 = [] ∧
    ¬ ((AutoDoc.chunk_text encW "" 5).length = 1) := by
  refine ⟨?_, ?_, rfl, by decide⟩
  · intro t u
    show String.mk ((t ++ u).map Char.ofNat) = String.mk (t.map Char.ofNat) ++ String.mk (u.map Char.ofNat)
    rw [List.map_append]
    rfl
  · intro s
    show String.mk ((s.data.map Char.toNat).map Char.ofNat) = s
    have h : ∀ l : List Char, (l.map Char.toNat).map Char.ofNat = l := by
      intro l
      induction l with
      | nil => rfl
      | cons c cs ih => simp [ih, Char.ofNat_toNat]
    rw [h]

/-- C7 (amended): for every token codec whose decoder inverts the encoder
and distributes over concatenation, and every positive chunk size:
concatenating the chunks of `chunk_text` reconstructs the text exactly; no
token slice exceeds `chunk_size` tokens; a text of between 1 and
`chunk_size` tokens yields exactly one chunk (the text itself); and a text
that encodes to zero tokens — in particular the empty text — yields zero
chunks. -/
theorem chunk_text_coverage (enc : AutoDoc.Encoding) (text : String) (chunk_size : Nat)
    (hpos : 0 < chunk_size)
    (hhom : ∀ t u : List Nat, enc.decode (t ++ u) = enc.decode t ++ enc.decode u)
    (hinv : ∀ s : String, enc.decode (enc.encode s) = s) :
    String.join (AutoDoc.chunk_text enc text chunk_size) = text ∧
    (∀ c ∈ chunksOf chunk_size (enc.encode text), c.length ≤ chunk_size) ∧
    (0 < AutoDoc.count_tokens enc text → AutoDoc.count_tokens enc text ≤ chunk_size →
      AutoDoc.chunk_text enc text chunk_size = [text]) ∧
    (AutoDoc.count_tokens enc text = 0 →
      AutoDoc.chunk_text enc text chunk_size = []) := by
  refine ⟨?_, fun c hc => chunksOf_mem_le chunk_size _ c hc, ?_, ?_⟩
  · unfold AutoDoc.chunk_text
    rw [flatten_decode enc hhom, chunksOf_flatten chunk_size hpos, hinv]
  · intro hlt hle
    unfold AutoDoc.chunk_text
    rw [chunksOf_single chunk_size hpos (enc.encode text)
      (by intro h; unfold AutoDoc.count_tokens at hlt; rw [h] at hlt; simp at hlt)
      hle]
    rw [List.map_cons, List.map_nil, hinv]
  · intro h0
    unfold AutoDoc.chunk_text
    unfold AutoDoc.count_tokens at h0
    rw [List.eq_nil_of_length_eq_zero h0]
    rfl

/-- Witness for C7's amended theorem at a concrete codec, text, and size. -/
theorem chunk_text_coverage_witness :
    0 < 2 ∧
    (∀ t u : List Nat, encW.decode (t ++ u) = encW.decode t ++ encW.decode u) ∧
    (∀ s : String, encW.decode (encW.encode s) = s) ∧
    (String.join (AutoDoc.chunk_text encW "abc" 2) = "abc" ∧
     (∀ c ∈ chunksOf 2 (encW.encode "abc"), c.length ≤ 2) ∧
     (0 < AutoDoc.count_tokens encW "abc" → AutoDoc.count_tokens encW "abc" ≤ 2 →
       AutoDoc.chunk_text encW "abc" 2 = ["abc"]) ∧
     (AutoDoc.count_tokens encW "abc" = 0 → AutoDoc.chunk_text encW "abc" 2 = [])) :=
  ⟨by decide, chunk_text_empty_no_chunk.1, chunk_text_empty_no_chunk.2.1,
   chunk_text_coverage encW "abc" 2 (by decide) chunk_text_empty_no_chunk.1
     chunk_text_empty_no_chunk.2.1⟩

/-! ## C5 -/

/-- C5: running `build_documentation` twice over an unchanged source tree
is idempotent — after a successful first run, a second run (under any
backend, since it is never consulted) performs zero `llm.prompt` calls at
every scope (empty prompt log), returns the same codebase summary, and
persists a cache identical to the one the first run persisted. -/
theorem build_documentation_idempotent
    (llm llm2 : AutoDoc.LLMFun) (enc : AutoDoc.Encoding) (pyAst : String → Option AutoDoc.PyMod)
    (fs : String → String) (dirs : List (String × List String)) (u u2 : Bool)
    (c0 : Option AutoDoc.Cache) (sum1 : String) (c1 : AutoDoc.Cache) (log1 : List String)
    (hkeys : (dirs.map (fun e => e.1)).Nodup)
    (hflat : (dirs.flatMap (fun e => e.2)).Nodup)
    (h1 : (AutoDoc.runBuild llm enc pyAst fs dirs u c0).result = .ok (sum1, c1, log1)) :
    (AutoDoc.runBuild llm2 enc pyAst fs dirs u2 (some c1)).result = .ok (sum1, c1, []) ∧
    (AutoDoc.runBuild llm2 enc pyAst fs dirs u2 (some c1)).saves = [c1] := by
  unfold AutoDoc.runBuild at h1
  cases hb : (AutoDoc.build_documentation llm enc pyAst fs dirs u).run
      ⟨c0.getD AutoDoc.emptyCache, []⟩ with
  | error e =>
    rw [hb] at h1
    cases h1
  | ok v =>
    obtain ⟨sum, st1⟩ := v
    rw [hb] at h1
    dsimp only [] at h1
    cases h1
    obtain ⟨hfresh, hcb, _, _⟩ :=
      AutoDoc.build_post llm enc pyAst fs dirs u _ sum1 st1 hb hkeys hflat
    have hrun2 : (AutoDoc.build_documentation llm2 enc pyAst fs dirs u2).run
        ⟨st1.cache, []⟩ =
        .ok ((⟨AutoDoc.codebaseHash fs dirs, sum1⟩ : AutoDoc.CodeRec).summary,
          ⟨st1.cache, []⟩) := by
      apply AutoDoc.build_fresh_run llm2 enc pyAst fs dirs u2 ⟨st1.cache, []⟩
        ⟨AutoDoc.codebaseHash fs dirs, sum1⟩ hfresh hcb rfl
      · show AutoDoc.codebaseHash fs dirs ≠ ""
        unfold AutoDoc.codebaseHash
        exact AutoDoc.combine_hashes_ne_empty _
      · exact AutoDoc.nodup_of_flatMap (fun e => e.2) dirs hflat
      · exact hkeys
    unfold AutoDoc.runBuild
    simp only [Option.getD_some]
    rw [hrun2]
    exact ⟨rfl, rfl⟩

set_option maxHeartbeats 8000000 in
/-- Witness for C5: after the concrete toy first run, a second run — even
with a backend that raises on every call — returns the same summary with
an empty prompt log and saves the identical cache. -/
theorem build_documentation_idempotent_witness :
    (dirsW.map (fun e => e.1)).Nodup ∧
    (dirsW.flatMap (fun e => e.2)).Nodup ∧
    (AutoDoc.runBuild llmW encW astNoneW fsW dirsW true none).result =
      .ok (sum1W, cache1W, log1W) ∧
    ((AutoDoc.runBuild llmFailW encW astNoneW fsW dirsW true (some cache1W)).result =
        .ok (sum1W, cache1W, []) ∧
      (AutoDoc.runBuild llmFailW encW astNoneW fsW dirsW true (some cache1W)).saves =
        [cache1W]) :=
  ⟨by decide, by decide, rfl,
   build_documentation_idempotent llmW llmFailW encW astNoneW fsW dirsW true true none
     sum1W cache1W log1W (by decide) (by decide) rfl⟩

/-! ## C4 -/

namespace AutoDoc

theorem compute_sha256_congr (fs fs2 : String → String) (fp : String)
    (h : fs2 fp = fs fp) : compute_sha256 fs2 fp = compute_sha256 fs fp := by
  unfold compute_sha256
  rw [h]

theorem dirHash_congr (fs fs2 : String → String) (files : List String)
    (h : ∀ fp ∈ files, fs2 fp = fs fp) : dirHash fs2 files = dirHash fs files := by
  unfold dirHash
  rw [List.map_congr_left (fun fp hfp => compute_sha256_congr fs fs2 fp (h fp hfp))]

end AutoDoc

/-- The second run of the locality experiment: the same toy tree with
exactly `d1/b.py` edited, starting from the cache the first run persisted. -/
def run2W : AutoDoc.RunResult := AutoDoc.runBuild llmW encW astNoneW fsW2 dirsW true (some cache1W)

/-- The cache the second run persists. -/
def cache2W : AutoDoc.Cache :=
  match run2W.result with
  | .ok (_, c, _) => c
  | .error _ => AutoDoc.emptyCache

/-- The codebase summary the second run returns. -/
def sum2W : String :=
  match run2W.result with
  | .ok (r, _, _) => r
  | .error _ => ""

/-- The prompt log of the second run. -/
def log2W : List String :=
  match run2W.result with
  | .ok (_, _, l) => l
  | .error _ => []

set_option maxHeartbeats 2000000 in
/-- C4: every directory record the engine stores carries
`combine_hashes(sorted(digests of exactly its immediate child files))`;
consequently, when exactly one file `p` changes between two runs over the
same tree, only `p`'s file record, `p`'s parent-directory record and the
codebase record can change: every other file record and every other
walked directory record is byte-identical (same digest and summary). -/
theorem invalidation_locality
    (llm llm2 : AutoDoc.LLMFun) (enc : AutoDoc.Encoding) (pyAst : String → Option AutoDoc.PyMod)
    (fs fs2 : String → String) (dirs : List (String × List String)) (u u2 : Bool)
    (c0 : Option AutoDoc.Cache) (p D : String) (flD : List String)
    (sum1 : String) (c1 : AutoDoc.Cache) (log1 : List String)
    (sum2 : String) (c2 : AutoDoc.Cache) (log2 : List String)
    (hagree : ∀ q, q ≠ p → fs2 q = fs q)
    (hD : (D, flD) ∈ dirs) (hp : p ∈ flD)
    (hkeys : (dirs.map (fun e => e.1)).Nodup)
    (hflat : (dirs.flatMap (fun e => e.2)).Nodup)
    (h1 : (AutoDoc.runBuild llm enc pyAst fs dirs u c0).result = .ok (sum1, c1, log1))
    (h2 : (AutoDoc.runBuild llm2 enc pyAst fs2 dirs u2 (some c1)).result = .ok (sum2, c2, log2)) :
    (∀ e ∈ dirs, ∃ drec, dget c2.directories e.1 = some drec ∧
      drec.dir_hash =
        AutoDoc.combine_hashes (pySorted (e.2.map (AutoDoc.compute_sha256 fs2)))) ∧
    (∃ rec, dget c2.files p = some rec ∧ rec.hash = AutoDoc.compute_sha256 fs2 p) ∧
    (∀ q, q ≠ p → dget c2.files q = dget c1.files q) ∧
    (∀ e ∈ dirs, e ≠ (D, flD) → dget c2.directories e.1 = dget c1.directories e.1) ∧
    c2.codebase = some ⟨AutoDoc.codebaseHash fs2 dirs, sum2⟩ := by
  -- unpack run 1
  unfold AutoDoc.runBuild at h1
  cases hb1 : (AutoDoc.build_documentation llm enc pyAst fs dirs u).run
      ⟨c0.getD AutoDoc.emptyCache, []⟩ with
  | error e => rw [hb1] at h1; cases h1
  | ok v =>
    obtain ⟨sumA, st1⟩ := v
    rw [hb1] at h1
    dsimp only [] at h1
    cases h1
    obtain ⟨hfresh1, _, _, _⟩ :=
      AutoDoc.build_post llm enc pyAst fs dirs u _ sum1 st1 hb1 hkeys hflat
    -- unpack run 2
    unfold AutoDoc.runBuild at h2
    simp only [Option.getD_some] at h2
    cases hb2 : (AutoDoc.build_documentation llm2 enc pyAst fs2 dirs u2).run
        ⟨st1.cache, []⟩ with
    | error e => rw [hb2] at h2; cases h2
    | ok w =>
      obtain ⟨sumB, st2⟩ := w
      rw [hb2] at h2
      dsimp only [] at h2
      cases h2
      obtain ⟨hfresh2, hcb2, _, _⟩ :=
        AutoDoc.build_post llm2 enc pyAst fs2 dirs u2 _ sum2 st2 hb2 hkeys hflat
      -- the mixed pass: decompose run 2 into the directory loop and the codebase step
      unfold AutoDoc.build_documentation at hb2
      simp only [StateT.run, bind, StateT.bind] at hb2
      cases hpd : AutoDoc.processDirs llm2 enc pyAst fs2 u2 [] dirs ⟨st1.cache, []⟩ with
      | error er => rw [hpd] at hb2; cases hb2
      | ok pv =>
        rw [hpd] at hb2
        obtain ⟨dsums, s2'⟩ := pv
        simp only [Except.bind] at hb2
        obtain ⟨hashes, _, hf3, hd3, _⟩ :=
          AutoDoc.cb_post llm2 enc dsums s2' sum2 st2 hb2
        have hffresh : ∀ e ∈ dirs, ∀ fp ∈ e.2, fp ≠ p →
            ∃ rec, dget (⟨st1.cache, []⟩ : AutoDoc.St).cache.files fp = some rec ∧
              rec.hash = AutoDoc.compute_sha256 fs2 fp := by
          intro e he fp hfp hfpne
          obtain ⟨rec, hget, hh⟩ := (hfresh1 e he).1 fp hfp
          refine ⟨rec, hget, ?_⟩
          rw [AutoDoc.compute_sha256_congr fs fs2 fp (hagree fp hfpne)]
          exact hh
        have hdfresh : ∀ e ∈ dirs, p ∉ e.2 →
            ∃ drec, dget (⟨st1.cache, []⟩ : AutoDoc.St).cache.directories e.1 = some drec ∧
              drec.dir_hash = AutoDoc.dirHash fs2 e.2 := by
          intro e he hpe
          obtain ⟨drec, hget, hh⟩ := (hfresh1 e he).2
          refine ⟨drec, hget, ?_⟩
          rw [AutoDoc.dirHash_congr fs fs2 e.2
            (fun fp hfp => hagree fp (fun heq => hpe (heq ▸ hfp)))]
          exact hh
        obtain ⟨mf, md, _, _⟩ :=
          AutoDoc.processDirs_mixed llm2 enc pyAst fs2 u2 p dirs [] ⟨st1.cache, []⟩
            dsums s2' hpd hkeys hflat hffresh hdfresh
        refine ⟨?_, ?_, ?_, ?_, hcb2⟩
        · intro e he
          obtain ⟨drec, hget, hh⟩ := (hfresh2 e he).2
          exact ⟨drec, hget, hh⟩
        · obtain ⟨rec, hget, hh⟩ := (hfresh2 (D, flD) hD).1 p hp
          exact ⟨rec, hget, hh⟩
        · intro q hq
          rw [hf3]
          exact mf q hq
        · intro e he hne
          rw [hd3]
          exact md e he (AutoDoc.p_notin_other dirs hflat D flD hD p hp e he hne)

set_option maxHeartbeats 8000000 in
/-- Witness for C4: in the toy tree, editing exactly `d1/b.py` between two
runs leaves the records of `d1/a.py`, `d2/c.py` and directory `d2`
byte-identical, while `d1/b.py`'s record carries the new digest and the
codebase record carries the recombined digest. -/
theorem invalidation_locality_witness :
    (∀ q, q ≠ "d1/b.py" → fsW2 q = fsW q) ∧
    (AutoDoc.runBuild llmW encW astNoneW fsW dirsW true none).result =
      .ok (sum1W, cache1W, log1W) ∧
    (AutoDoc.runBuild llmW encW astNoneW fsW2 dirsW true (some cache1W)).result =
      .ok (sum2W, cache2W, log2W) ∧
    dget cache2W.files "d1/a.py" = dget cache1W.files "d1/a.py" ∧
    dget cache2W.files "d2/c.py" = dget cache1W.files "d2/c.py" ∧
    dget cache2W.directories "d2" = dget cache1W.directories "d2" ∧
    (∃ rec, dget cache2W.files "d1/b.py" = some rec ∧
      rec.hash = AutoDoc.compute_sha256 fsW2 "d1/b.py") ∧
    cache2W.codebase = some ⟨AutoDoc.codebaseHash fsW2 dirsW, sum2W⟩ := by
  have hagree : ∀ q, q ≠ "d1/b.py" → fsW2 q = fsW q := by
    intro q hq
    unfold fsW2
    rw [if_neg hq]
  have h := invalidation_locality llmW llmW encW astNoneW fsW fsW2 dirsW true true none
    "d1/b.py" "d1" ["d1/a.py", "d1/b.py"] sum1W cache1W log1W sum2W cache2W log2W
    hagree (by decide) (by decide) (by decide) (by decide) rfl rfl
  exact ⟨hagree, rfl, rfl,
    h.2.2.1 "d1/a.py" (by decide),
    h.2.2.1 "d2/c.py" (by decide),
    h.2.2.2.1 ("d2", ["d2/c.py"]) (by decide) (by decide),
    h.2.1, h.2.2.2.2⟩
